import Mathlib

/-!
Formal model of the unified photon-mapping integrator of
`src/volumes/volumephotonmap.cpp` and of the median-cut environment light of
`src/lights/medianCutEnvironmentLight.cpp`.

Floating-point scalars are modelled as rationals, pbrt `Spectrum` values as
RGB triples of rationals, and the stochastic inputs of the C++ code
(`RandomFloat()` draws, BSDF sampling outcomes, scene intersections, kd-tree
visiting order) as explicit oracle data threaded through state-passing
translations of the C++ loops.  The constant `M_PI` is kept as an explicit
rational parameter `pi` of the definitions that use it, so that all
definitions stay executable.
-/

/-- RGB spectrum (pbrt `Spectrum` = `RGBSpectrum`), componentwise rationals. -/
structure Spectrum where
  r : ℚ
  g : ℚ
  b : ℚ
deriving DecidableEq

instance : Zero Spectrum := ⟨⟨0, 0, 0⟩⟩

instance : Add Spectrum := ⟨fun s t => ⟨s.r + t.r, s.g + t.g, s.b + t.b⟩⟩

instance : Mul Spectrum := ⟨fun s t => ⟨s.r * t.r, s.g * t.g, s.b * t.b⟩⟩

/-- Scaling a spectrum by a scalar (`Spectrum * float` in pbrt). -/
def Spectrum.scale (q : ℚ) (s : Spectrum) : Spectrum := ⟨q * s.r, q * s.g, q * s.b⟩

/-- Division of a spectrum by a scalar (`Spectrum / float` in pbrt). -/
def Spectrum.divQ (s : Spectrum) (q : ℚ) : Spectrum := ⟨s.r / q, s.g / q, s.b / q⟩

/-- `Spectrum::Black()`: all components vanish. -/
def Spectrum.isBlack (s : Spectrum) : Bool := s.r == 0 && s.g == 0 && s.b == 0

/-- 3-vectors over ℚ (pbrt `Point` / `Vector` / `Normal`). -/
structure Vec3 where
  x : ℚ
  y : ℚ
  z : ℚ
deriving DecidableEq

/-- pbrt `Dot`. -/
def Vec3.dot (v w : Vec3) : ℚ := v.x * w.x + v.y * w.y + v.z * w.z

instance : Neg Vec3 := ⟨fun v => ⟨-v.x, -v.y, -v.z⟩⟩

/-- A ray, reduced to origin and direction (the fields the modelled code
reads or writes). -/
structure RayT where
  o : Vec3
  d : Vec3
deriving DecidableEq

/-!
### Per-category photon accounting

`Surface_Preprocess` keeps, for each of the caustic / indirect / volume
photon categories: the target count (`nCausticPhotons`, `nIndirectPhotons`,
`nVolumePhotons`), the growing photon vector, the completion flag
(`causticDone`, ...), the recorded number of paths (`nCausticPaths`, ...)
and the `KdTree` map pointer.  `CatState` models exactly this data for one
category: `stored` is the photon vector's size, `paths` is `some p` once the
map has been constructed recording `p` paths (`none` models a NULL map
pointer), and `builds` counts how many times `new KdTree(...)` has run for
this category.
-/
structure CatState where
  target : ℕ
  stored : ℕ
  done : Bool
  paths : Option ℕ
  builds : ℕ
deriving DecidableEq

/-- Initial category state: `xxxDone = (nXxxPhotons == 0)`, empty vector,
NULL map. -/
def catInit (t : ℕ) : CatState :=
  ⟨t, 0, t == 0, none, 0⟩

/-- One guarded deposit into a category, exactly the pattern
`if (!done) { photons.push_back(p); if (photons.size() == target) { done =
true; nPaths = (int)nshot; map = new KdTree(photons); } }` used for the
caustic and indirect categories in `Surface_Preprocess` and for the volume
category in `TraceThrough`.  `shot` is the value of `nshot` at the deposit. -/
def catDeposit (shot : ℕ) (c : CatState) : CatState :=
  if c.done then c
  else
    let stored := c.stored + 1
    if stored == c.target then ⟨c.target, stored, true, some shot, c.builds + 1⟩
    else ⟨c.target, stored, c.done, c.paths, c.builds⟩

/-!
### The medium-interaction block of `TraceThrough` (claim C8)

On each iteration of the `TraceThrough` while-loop in which `RayMarch`
reports an interaction, the code deposits a volume photon (guarded by
`volumeDone`), then either absorbs the path (`albedo < RandomFloat()`)
or scatters it: `alpha *= INV_TWOPI / 2` and the new march direction is the
normalized uniform sphere sample.  `u` models the `RandomFloat()` draw of the
absorption test and `sphereDir` the (already normalized) result of
`Normalize(UniformSampleSphere(RandomFloat(), RandomFloat()))`.
-/
structure VolScatterResult where
  volume : CatState
  scattered : Bool
  alpha : Spectrum
  dir : Vec3
deriving DecidableEq

/-- The interaction block of `VolumePhotonMap::TraceThrough`
(volume-photon deposit, absorption test, isotropic scattering). -/
def traceThroughInteract (pi : ℚ) (vol : CatState) (shot : ℕ) (alpha : Spectrum)
    (albedo u : ℚ) (sphereDir curDir : Vec3) : VolScatterResult :=
  let vol' := catDeposit shot vol
  if albedo < u then ⟨vol', false, alpha, curDir⟩
  else ⟨vol', true, alpha.scale (1 / (2 * pi) / 2), sphereDir⟩

/-!
### `RadiancePhotonProcess` (claim C9)

The angularly filtered single-nearest lookup used for the radiance-photon
map.  A candidate is reduced to its stored normal and its squared distance
to the query point; `radLookupStep` adds the visiting convention of
`KdTree::Lookup`, which invokes the process only for candidates whose
squared distance is strictly below the current search bound (modelled from
the spec: the kd-tree itself, `kdtree.h`, is not part of the sources;
its contract returns entries within the current radius).
-/
structure RadCand where
  n : Vec3
  d2 : ℚ
deriving DecidableEq

structure RadProcState where
  nq : Vec3
  photon : Option RadCand
  md2 : ℚ
deriving DecidableEq

/-- `RadiancePhotonProcess::operator()`: accept when `Dot(rp.n, n) > 0`,
keeping the candidate and shrinking the bound to its squared distance. -/
def radProcess (st : RadProcState) (c : RadCand) : RadProcState :=
  if 0 < c.n.dot st.nq then { st with photon := some c, md2 := c.d2 } else st

/-- A second definition following the claim's words, for comparison:
acceptance at non-negative (rather than strictly positive) dot product. -/
def radProcessClaimed (st : RadProcState) (c : RadCand) : RadProcState :=
  if 0 ≤ c.n.dot st.nq then { st with photon := some c, md2 := c.d2 } else st

/-- One kd-tree visit: the process runs only within the current bound. -/
def radLookupStep (st : RadProcState) (c : RadCand) : RadProcState :=
  if c.d2 < st.md2 then radProcess st c else st

/-- A whole `radianceMap->Lookup` call over the candidates the tree visits. -/
def radLookupRun (nq : Vec3) (md2 : ℚ) (cands : List RadCand) : RadProcState :=
  cands.foldl radLookupStep ⟨nq, none, md2⟩

/-!
### The photon-emission interface of `MedianCutEnvironmentLight` (claim C10)

The `Scene`-based overload of `Sample_L` has its whole body commented out
except `return 0;`: it writes none of `*ray`, `*Ns`, `*pdf`.  `Pdf` returns
`0.0f`.  The out-parameters are modelled by passing in their previous values
and returning them.
-/
def medianCutSampleLScene (ray0 : RayT) (ns0 : Vec3) (pdf0 : ℚ) :
    Spectrum × RayT × Vec3 × ℚ :=
  (0, ray0, ns0, pdf0)

/-- `MedianCutEnvironmentLight::Pdf(const Point &, const Vector &)`. -/
def medianCutPdf (_p : Vec3) (_w : Vec3) : ℚ := 0

/-- The guard `if (pdf == 0.f || alpha.Black()) continue;` right after
`light->Sample_L(scene, ...)` in `Surface_Preprocess`: the shot proceeds to
tracing only when it is false. -/
def photonShotProceeds (pdf : ℚ) (alpha : Spectrum) : Bool :=
  !(pdf == 0 || alpha.isBlack)

/-- C10: the Scene-based `Sample_L` overload of `MedianCutEnvironmentLight`
returns the black spectrum and leaves its `ray`, `Ns` and `pdf` output
parameters untouched, `Pdf` returns 0 everywhere, and consequently the
photon-shooting loop of `Surface_Preprocess` skips every shot drawn from
this light (the emitted `alpha` is black), so no photon from it ever
carries energy. -/
theorem medianCut_photon_interface_inert (ray0 : RayT) (ns0 : Vec3) (pdf0 : ℚ)
    (p w : Vec3) (pdfGarbage : ℚ) :
    medianCutSampleLScene ray0 ns0 pdf0 = (0, ray0, ns0, pdf0) ∧
    (medianCutSampleLScene ray0 ns0 pdf0).1.isBlack = true ∧
    medianCutPdf p w = 0 ∧
    photonShotProceeds pdfGarbage (medianCutSampleLScene ray0 ns0 pdf0).1 = false := by
  have hb : (0 : Spectrum).isBlack = true := rfl
  refine ⟨rfl, rfl, rfl, ?_⟩
  simp [photonShotProceeds, medianCutSampleLScene, hb]

/-!
### Claim C9: single-nearest angularly filtered lookup
-/

/-- Invariant of a `radianceMap->Lookup` in progress: either nothing was
accepted yet and the bound is the initial one, or `photon` is the accepted
candidate of minimal squared distance among all accepted candidates within
the initial bound, with the bound shrunk to its distance. -/
def RadInv (nq : Vec3) (md2i : ℚ) (seen : List RadCand) (st : RadProcState) : Prop :=
  st.nq = nq ∧
  ((st.photon = none ∧ st.md2 = md2i ∧
      ∀ c ∈ seen, ¬(0 < c.n.dot nq ∧ c.d2 < md2i)) ∨
   (∃ c0, st.photon = some c0 ∧ c0 ∈ seen ∧ 0 < c0.n.dot nq ∧ c0.d2 < md2i ∧
      st.md2 = c0.d2 ∧
      ∀ c' ∈ seen, 0 < c'.n.dot nq → c'.d2 < md2i → c0.d2 ≤ c'.d2))

lemma radStep_inv {nq : Vec3} {md2i : ℚ} {seen : List RadCand} {st : RadProcState}
    (h : RadInv nq md2i seen st) (c : RadCand) :
    RadInv nq md2i (seen ++ [c]) (radLookupStep st c) := by
  obtain ⟨hnq, hcase⟩ := h
  by_cases hg : c.d2 < st.md2
  · by_cases hd : 0 < c.n.dot st.nq
    · have hstep : radLookupStep st c = { st with photon := some c, md2 := c.d2 } := by
        simp [radLookupStep, radProcess, hg, hd]
      have hdnq : 0 < c.n.dot nq := by rwa [hnq] at hd
      rw [hstep]
      refine ⟨hnq, Or.inr ?_⟩
      rcases hcase with ⟨-, hmd, hnone⟩ | ⟨c0, hc0, -, -, hc0lt, hmd, hmin⟩
      · refine ⟨c, rfl, by simp, hdnq, hmd ▸ hg, rfl, ?_⟩
        intro c' hc' hdot hlt
        rcases List.mem_append.1 hc' with hc' | hc'
        · exact absurd ⟨hdot, hlt⟩ (hnone c' hc')
        · simp at hc'; subst hc'; exact le_refl _
      · have hlt0 : c.d2 < c0.d2 := hmd ▸ hg
        refine ⟨c, rfl, by simp, hdnq, lt_trans hlt0 hc0lt, rfl, ?_⟩
        intro c' hc' hdot hlt
        rcases List.mem_append.1 hc' with hc' | hc'
        · exact le_trans (le_of_lt hlt0) (hmin c' hc' hdot hlt)
        · simp at hc'; subst hc'; exact le_refl _
    · have hst : radLookupStep st c = st := by simp [radLookupStep, radProcess, hg, hd]
      rw [hst]
      refine ⟨hnq, ?_⟩
      rcases hcase with ⟨hph, hmd, hnone⟩ | ⟨c0, hc0, hc0mem, hc0dot, hc0lt, hmd, hmin⟩
      · refine Or.inl ⟨hph, hmd, ?_⟩
        intro c' hc'
        rcases List.mem_append.1 hc' with hc' | hc'
        · exact hnone c' hc'
        · simp at hc'; subst hc'
          rw [hnq] at hd
          exact fun hcontra => hd hcontra.1
      · refine Or.inr ⟨c0, hc0, List.mem_append.2 (Or.inl hc0mem), hc0dot, hc0lt, hmd, ?_⟩
        intro c' hc' hdot hlt
        rcases List.mem_append.1 hc' with hc' | hc'
        · exact hmin c' hc' hdot hlt
        · simp at hc'; subst hc'
          rw [hnq] at hd
          exact absurd hdot hd
  · have hst : radLookupStep st c = st := by simp [radLookupStep, hg]
    rw [hst]
    refine ⟨hnq, ?_⟩
    rcases hcase with ⟨hph, hmd, hnone⟩ | ⟨c0, hc0, hc0mem, hc0dot, hc0lt, hmd, hmin⟩
    · refine Or.inl ⟨hph, hmd, ?_⟩
      intro c' hc'
      rcases List.mem_append.1 hc' with hc' | hc'
      · exact hnone c' hc'
      · simp at hc'; subst hc'
        rw [hmd] at hg
        exact fun hcontra => hg hcontra.2
    · refine Or.inr ⟨c0, hc0, List.mem_append.2 (Or.inl hc0mem), hc0dot, hc0lt, hmd, ?_⟩
      intro c' hc' hdot hlt
      rcases List.mem_append.1 hc' with hc' | hc'
      · exact hmin c' hc' hdot hlt
      · simp at hc'; subst hc'
        rw [hmd] at hg
        exact le_of_not_lt hg

lemma radFold_inv {nq : Vec3} {md2i : ℚ} :
    ∀ (cs : List RadCand) (seen : List RadCand) (st : RadProcState),
      RadInv nq md2i seen st →
      RadInv nq md2i (seen ++ cs) (cs.foldl radLookupStep st)
  | [], seen, st, h => by simpa using h
  | c :: cs, seen, st, h => by
    have h1 := radFold_inv cs (seen ++ [c]) (radLookupStep st c) (radStep_inv h c)
    simpa [List.append_assoc] using h1

lemma radLookupRun_inv (nq : Vec3) (md2i : ℚ) (cands : List RadCand) :
    RadInv nq md2i cands (radLookupRun nq md2i cands) := by
  have h0 : RadInv nq md2i [] ⟨nq, none, md2i⟩ :=
    ⟨rfl, Or.inl ⟨rfl, rfl, by simp⟩⟩
  simpa using radFold_inv cands [] ⟨nq, none, md2i⟩ h0

/-- C9 (amended): in the angularly filtered radiance-photon lookup a
candidate is accepted exactly when the dot product of its stored normal with
the query normal is strictly positive (and it lies within the current search
bound); each acceptance overwrites the retained pointer and shrinks the
search radius to the accepted candidate's squared distance, so after the
whole lookup the single retained candidate is an accepted candidate of
minimal squared distance among all accepted candidates within the initial
bound, and the reported radius equals its squared distance. -/
theorem radiancePhotonProcess_nearest_accepted (nq : Vec3) (md2i : ℚ)
    (cands : List RadCand) :
    (∀ (st : RadProcState) (c : RadCand), radLookupStep st c =
      if c.d2 < st.md2 ∧ 0 < c.n.dot st.nq then
        { st with photon := some c, md2 := c.d2 } else st) ∧
    ((radLookupRun nq md2i cands).photon = none →
      (radLookupRun nq md2i cands).md2 = md2i ∧
      ∀ c ∈ cands, ¬(0 < c.n.dot nq ∧ c.d2 < md2i)) ∧
    (∀ c0, (radLookupRun nq md2i cands).photon = some c0 →
      c0 ∈ cands ∧ 0 < c0.n.dot nq ∧ c0.d2 < md2i ∧
      (radLookupRun nq md2i cands).md2 = c0.d2 ∧
      ∀ c' ∈ cands, 0 < c'.n.dot nq → c'.d2 < md2i → c0.d2 ≤ c'.d2) := by
  obtain ⟨-, hcase⟩ := radLookupRun_inv nq md2i cands
  refine ⟨?_, ?_, ?_⟩
  · intro st c
    by_cases hg : c.d2 < st.md2 <;> by_cases hd : 0 < c.n.dot st.nq <;>
      simp [radLookupStep, radProcess, hg, hd]
  · intro hnone
    rcases hcase with ⟨-, hmd, hall⟩ | ⟨c0, hc0, -⟩
    · exact ⟨hmd, hall⟩
    · rw [hnone] at hc0; cases hc0
  · intro c0 hc0
    rcases hcase with ⟨hph, -, -⟩ | ⟨c1, hc1, hmem, hdot, hlt, hmd, hmin⟩
    · rw [hc0] at hph; cases hph
    · rw [hc0] at hc1
      cases hc1
      exact ⟨hmem, hdot, hlt, hmd, hmin⟩

/-- Witness for C9's theorem at a concrete lookup: two accepted candidates
at squared distances 9 and 4, one rejected candidate at distance 1 whose
normal faces away; the retained photon is the accepted one at distance 4. -/
theorem radiancePhotonProcess_nearest_accepted_witness :
    let nq : Vec3 := ⟨0, 0, 1⟩
    let cfar : RadCand := ⟨⟨0, 0, 1⟩, 9⟩
    let cnear : RadCand := ⟨⟨1, 0, 1⟩, 4⟩
    let cback : RadCand := ⟨⟨0, 0, -1⟩, 1⟩
    let cands := [cfar, cnear, cback]
    cnear ∈ cands ∧ 0 < Vec3.dot cnear.n nq ∧ cnear.d2 < 100 ∧
      (radLookupRun nq 100 cands).md2 = cnear.d2 ∧
      ∀ c' ∈ cands, 0 < Vec3.dot c'.n nq → c'.d2 < 100 → cnear.d2 ≤ c'.d2 := by
  exact (radiancePhotonProcess_nearest_accepted ⟨0, 0, 1⟩ 100
    [⟨⟨0, 0, 1⟩, 9⟩, ⟨⟨1, 0, 1⟩, 4⟩, ⟨⟨0, 0, -1⟩, 1⟩]).2.2 ⟨⟨1, 0, 1⟩, 4⟩
    (by norm_num [radLookupRun, radLookupStep, radProcess, Vec3.dot])

/-- Counterexample for C9 as stated: a candidate whose stored normal is
exactly perpendicular to the query normal (dot product 0, hence
non-negative) lies well inside the search radius, yet
`RadiancePhotonProcess::operator()` rejects it (`Dot > 0` is strict) and the
lookup retains nothing; the claimed non-negative acceptance rule would have
retained it, as `radProcessClaimed` shows. -/
theorem radiancePhotonProcess_dot_zero_rejected :
    (radLookupRun ⟨1, 0, 0⟩ 4 [⟨⟨0, 1, 0⟩, 1⟩]).photon = none ∧
    0 ≤ Vec3.dot ⟨0, 1, 0⟩ ⟨1, 0, 0⟩ ∧ (1 : ℚ) < 4 ∧
    (radProcessClaimed ⟨⟨1, 0, 0⟩, none, 4⟩ ⟨⟨0, 1, 0⟩, 1⟩).photon =
      some ⟨⟨0, 1, 0⟩, 1⟩ := by
  refine ⟨?_, by norm_num [Vec3.dot], by norm_num, ?_⟩
  · norm_num [radLookupRun, radLookupStep, radProcess, Vec3.dot]
  · norm_num [radProcessClaimed, Vec3.dot]

/-- C8 (amended): on a medium interaction reported during photon tracing, a
volume photon is deposited exactly when the volume category is not yet
complete; the path continues (scatters) exactly when the uniform draw is at
most (not strictly below) the local single-scattering albedo; on
continuation the weight is multiplied by `1/(4π)` (`INV_TWOPI / 2`) and the
new direction is the sampled uniform-sphere direction; on absorption the
weight and direction are untouched. -/
theorem traceThrough_interaction (pi : ℚ) (vol : CatState) (shot : ℕ)
    (alpha : Spectrum) (albedo u : ℚ) (sphereDir curDir : Vec3) :
    ((traceThroughInteract pi vol shot alpha albedo u sphereDir curDir).scattered = true ↔
        u ≤ albedo) ∧
    (traceThroughInteract pi vol shot alpha albedo u sphereDir curDir).volume =
      catDeposit shot vol ∧
    (vol.done = true →
      (traceThroughInteract pi vol shot alpha albedo u sphereDir curDir).volume.stored =
        vol.stored) ∧
    (vol.done = false →
      (traceThroughInteract pi vol shot alpha albedo u sphereDir curDir).volume.stored =
        vol.stored + 1) ∧
    (u ≤ albedo →
      (traceThroughInteract pi vol shot alpha albedo u sphereDir curDir).alpha =
        alpha.scale (1 / (4 * pi)) ∧
      (traceThroughInteract pi vol shot alpha albedo u sphereDir curDir).dir = sphereDir) ∧
    (albedo < u →
      (traceThroughInteract pi vol shot alpha albedo u sphereDir curDir).alpha = alpha ∧
      (traceThroughInteract pi vol shot alpha albedo u sphereDir curDir).dir = curDir) := by
  have hscale : (1 : ℚ) / (2 * pi) / 2 = 1 / (4 * pi) := by
    rw [div_div]
    ring_nf
  refine ⟨?_, ?_, ?_, ?_, ?_, ?_⟩
  · by_cases h : albedo < u
    · simp [traceThroughInteract, h, not_le.2 h]
    · simp [traceThroughInteract, h, not_lt.1 h]
  · by_cases h : albedo < u <;> simp [traceThroughInteract, h]
  · intro hdone
    by_cases h : albedo < u <;> simp [traceThroughInteract, h, catDeposit, hdone]
  · intro hdone
    by_cases h : albedo < u <;>
      by_cases ht : vol.stored + 1 == vol.target <;>
        simp [traceThroughInteract, h, catDeposit, hdone, ht]
  · intro hu
    have h1 : traceThroughInteract pi vol shot alpha albedo u sphereDir curDir =
        ⟨catDeposit shot vol, true, alpha.scale (1 / (2 * pi) / 2), sphereDir⟩ := by
      simp only [traceThroughInteract]
      rw [if_neg (not_lt.2 hu)]
    rw [h1, hscale]
    exact ⟨rfl, rfl⟩
  · intro hu
    have h1 : traceThroughInteract pi vol shot alpha albedo u sphereDir curDir =
        ⟨catDeposit shot vol, false, alpha, curDir⟩ := by
      simp only [traceThroughInteract]
      rw [if_pos hu]
    rw [h1]
    exact ⟨rfl, rfl⟩

/-- Witness for C8's theorem: a concrete interaction at `u = 1/4 ≤ albedo =
1/2` on a not-yet-complete volume category deposits one photon, scatters,
scales the weight by `1/(4π)` (with `π` instantiated to the rational 3) and
takes the sampled sphere direction. -/
theorem traceThrough_interaction_witness :
    ((traceThroughInteract 3 (catInit 5) 7 ⟨1, 2, 3⟩ (1/2) (1/4) ⟨0, 0, 1⟩
        ⟨0, 1, 0⟩).scattered = true ↔ (1/4 : ℚ) ≤ 1/2) ∧
    (traceThroughInteract 3 (catInit 5) 7 ⟨1, 2, 3⟩ (1/2) (1/4) ⟨0, 0, 1⟩
        ⟨0, 1, 0⟩).volume.stored = (catInit 5).stored + 1 ∧
    (traceThroughInteract 3 (catInit 5) 7 ⟨1, 2, 3⟩ (1/2) (1/4) ⟨0, 0, 1⟩
        ⟨0, 1, 0⟩).alpha = Spectrum.scale (1 / (4 * 3)) ⟨1, 2, 3⟩ := by
  have h := traceThrough_interaction 3 (catInit 5) 7 ⟨1, 2, 3⟩ (1/2) (1/4)
    ⟨0, 0, 1⟩ ⟨0, 1, 0⟩
  exact ⟨h.1, h.2.2.2.1 (by decide), (h.2.2.2.2.1 (by norm_num)).1⟩

/-- Counterexample for C8 as stated: at the boundary draw `u = albedo = 1/2`
the code continues the path (`albedo < RandomFloat()` is false, so no
absorption), although the draw is not strictly below the albedo as the claim
requires. -/
theorem traceThrough_albedo_boundary :
    (traceThroughInteract 3 (catInit 5) 1 ⟨1, 1, 1⟩ (1/2) (1/2) ⟨0, 0, 1⟩
        ⟨0, 1, 0⟩).scattered = true ∧
    ¬((1/2 : ℚ) < 1/2) := by
  refine ⟨?_, by norm_num⟩
  norm_num [traceThroughInteract]

/-!
### `PhotonProcess`: the bounded k-nearest collector (claims C2, C6)

`PhotonProcess::operator()` keeps, in `photons[0..foundPhotons)`, the
candidates retained so far; once `nLookup` candidates have been seen the
array is managed as a max-heap (`std::make_heap` / `std::pop_heap` /
`std::push_heap`, ordered by `ClosePhoton::operator<`, i.e. by squared
distance with the photon pointer as tie-break).  The heap is modelled by
the multiset of retained squared distances, kept as a list sorted
increasingly: the heap's top `photons[0]` (its maximum) is the last list
element.  `std::pop_heap` followed by overwriting `photons[nLookup-1]` and
`std::push_heap` removes the maximum and inserts the new candidate, i.e.
drops the last element of the sorted list and inserts the new distance in
order.  A candidate is reduced to its squared distance to the query point.
-/
structure ProcState where
  nLookup : ℕ
  found : List ℚ
  md2 : ℚ
deriving DecidableEq

/-- `PhotonProcess::operator()` on one candidate at squared distance `d2`:
below capacity it appends (heapifying and setting the reported bound to the
farthest retained distance exactly when capacity is reached); at capacity it
evicts the farthest retained candidate, inserts the new one, and reports the
new farthest distance as the bound. -/
def procInsert (st : ProcState) (d2 : ℚ) : ProcState :=
  if st.found.length < st.nLookup then
    if (List.orderedInsert (· ≤ ·) d2 st.found).length == st.nLookup then
      ⟨st.nLookup, List.orderedInsert (· ≤ ·) d2 st.found,
        (List.orderedInsert (· ≤ ·) d2 st.found).getLastD 0⟩
    else ⟨st.nLookup, List.orderedInsert (· ≤ ·) d2 st.found, st.md2⟩
  else
    ⟨st.nLookup, List.orderedInsert (· ≤ ·) d2 st.found.dropLast,
      (List.orderedInsert (· ≤ ·) d2 st.found.dropLast).getLastD 0⟩

/-- One kd-tree visit (modelled from the spec, `kdtree.h` not being among
the sources): `KdTree::Lookup` runs the process callback only for
candidates strictly inside the current search bound. -/
def lookupStep (st : ProcState) (d2 : ℚ) : ProcState :=
  if d2 < st.md2 then procInsert st d2 else st

/-- A whole `map->Lookup(p, proc, md2)` call over the candidates the tree
visits, from an empty collector with capacity `k` and initial bound `md2`. -/
def lookupRun (k : ℕ) (md2 : ℚ) (cs : List ℚ) : ProcState :=
  cs.foldl lookupStep ⟨k, [], md2⟩

/-- The `k` smallest squared distances among `cs`, in increasing order. -/
def kSmall (k : ℕ) (cs : List ℚ) : List ℚ :=
  (List.insertionSort (· ≤ ·) cs).take k

lemma getLastD_indep (x a b : ℚ) (l : List ℚ) :
    (x :: l).getLastD a = (x :: l).getLastD b := by
  rw [List.getLastD_cons, List.getLastD_cons]

lemma getLastD_mem : ∀ (x : ℚ) (l : List ℚ), (x :: l).getLastD 0 ∈ x :: l
  | x, [] => by simp [List.getLastD]
  | x, y :: t => by
    rw [List.getLastD_cons, getLastD_indep y x 0 t]
    exact List.mem_cons_of_mem x (getLastD_mem y t)

lemma le_getLastD_sorted : ∀ (l : List ℚ), l.Sorted (· ≤ ·) →
    ∀ x ∈ l, x ≤ l.getLastD 0
  | [], _, x, hx => absurd hx (List.not_mem_nil x)
  | [a], _, x, hx => by
    simp at hx
    simp [hx, List.getLastD]
  | a :: b :: t, hs, x, hx => by
    obtain ⟨ha, hs'⟩ := List.sorted_cons.1 hs
    rw [List.getLastD_cons, getLastD_indep b a 0 t]
    rcases List.mem_cons.1 hx with hx | hx
    · subst hx
      exact le_trans (ha b (List.mem_cons_self b t))
        (le_getLastD_sorted (b :: t) hs' b (List.mem_cons_self b t))
    · exact le_getLastD_sorted (b :: t) hs' x hx

/-- In a sorted list, the max of the first `k + 1` entries is at most every
entry from position `k` on. -/
lemma take_getLastD_le_drop : ∀ (l : List ℚ) (k : ℕ), l.Sorted (· ≤ ·) →
    k + 1 ≤ l.length → ∀ x ∈ l.drop k, (l.take (k + 1)).getLastD 0 ≤ x
  | [], k, _, hk, x, hx => by
    simp at hk
  | a :: t, 0, hs, _, x, hx => by
    have hx' : x ∈ a :: t := hx
    show ([a] : List ℚ).getLastD 0 ≤ x
    rcases List.mem_cons.1 hx' with hx' | hx'
    · exact le_of_eq hx'.symm
    · exact (List.sorted_cons.1 hs).1 x hx'
  | a :: t, k + 1, hs, hk, x, hx => by
    have hlen : k + 1 ≤ t.length := by
      rw [List.length_cons] at hk
      omega
    have hs' := (List.sorted_cons.1 hs).2
    have hx' : x ∈ t.drop k := hx
    have htail := take_getLastD_le_drop t k hs' hlen x hx'
    have htake : ((a :: t).take (k + 2)).getLastD 0 = (t.take (k + 1)).getLastD 0 := by
      rw [List.take_succ_cons, List.getLastD_cons]
      have hne : t.take (k + 1) ≠ [] := by
        apply List.ne_nil_of_length_pos
        rw [List.length_take]
        omega
      obtain ⟨y, u, hyu⟩ := List.exists_cons_of_ne_nil hne
      rw [hyu]
      exact getLastD_indep y a 0 u
    rw [htake]
    exact htail

/-- Inserting a candidate strictly below the `k+1`-st smallest entry of a
sorted list commutes with truncation to the `k+1` smallest. -/
lemma orderedInsert_take_lt : ∀ (l : List ℚ) (k : ℕ) (c : ℚ), l.Sorted (· ≤ ·) →
    k + 1 ≤ l.length → (∀ x ∈ l.drop k, c < x) →
    List.orderedInsert (· ≤ ·) c (l.take k) =
      (List.orderedInsert (· ≤ ·) c l).take (k + 1)
  | [], k, c, _, hk, _ => by simp at hk
  | a :: t, 0, c, hs, hk, hlt => by
    have hca : c ≤ a := le_of_lt (hlt a (List.mem_cons_self a t))
    show [c] = (List.orderedInsert (· ≤ ·) c (a :: t)).take 1
    simp only [List.orderedInsert, if_pos hca]
    rfl
  | a :: t, k + 1, c, hs, hk, hlt => by
    by_cases hca : c ≤ a
    · have h1 : List.orderedInsert (· ≤ ·) c ((a :: t).take (k + 1)) =
          c :: a :: t.take k := by
        show List.orderedInsert (· ≤ ·) c (a :: t.take k) = _
        simp only [List.orderedInsert, if_pos hca]
      have h2 : List.orderedInsert (· ≤ ·) c (a :: t) = c :: a :: t := by
        simp only [List.orderedInsert, if_pos hca]
      rw [h1, h2]
      rfl
    · have h1 : List.orderedInsert (· ≤ ·) c ((a :: t).take (k + 1)) =
          a :: List.orderedInsert (· ≤ ·) c (t.take k) := by
        show List.orderedInsert (· ≤ ·) c (a :: t.take k) = _
        simp only [List.orderedInsert, if_neg hca]
      have h2 : List.orderedInsert (· ≤ ·) c (a :: t) =
          a :: List.orderedInsert (· ≤ ·) c t := by
        simp only [List.orderedInsert, if_neg hca]
      rw [h1, h2, List.take_succ_cons]
      congr 1
      exact orderedInsert_take_lt t k c (List.sorted_cons.1 hs).2
        (by rw [List.length_cons] at hk; omega) (fun x hx => hlt x hx)

/-- Every list of length `n` whose entries all equal `a` is `replicate n a`;
hence two such lists are equal. -/
lemma eq_of_all_eq {l₁ l₂ : List ℚ} {a : ℚ} (hlen : l₁.length = l₂.length)
    (h₁ : ∀ x ∈ l₁, x = a) (h₂ : ∀ x ∈ l₂, x = a) : l₁ = l₂ := by
  have e₁ : l₁ = List.replicate l₁.length a := List.eq_replicate_iff.2 ⟨rfl, h₁⟩
  have e₂ : l₂ = List.replicate l₂.length a := List.eq_replicate_iff.2 ⟨rfl, h₂⟩
  rw [e₁, e₂, hlen]

/-- Inserting a candidate at least as far as all of the `k` smallest entries
of a sorted list leaves the `k` smallest unchanged. -/
lemma orderedInsert_take_ge : ∀ (l : List ℚ) (k : ℕ) (c : ℚ), l.Sorted (· ≤ ·) →
    k ≤ l.length → (∀ x ∈ l.take k, x ≤ c) →
    (List.orderedInsert (· ≤ ·) c l).take k = l.take k
  | _, 0, _, _, _, _ => by simp
  | [], k + 1, c, _, hk, _ => by simp at hk
  | a :: t, k + 1, c, hs, hk, hle => by
    have hkt : k ≤ t.length := by
      rw [List.length_cons] at hk
      omega
    by_cases hca : c ≤ a
    · have hac : a ≤ c := hle a (List.mem_cons_self a (t.take k))
      have hceq : c = a := le_antisymm hca hac
      have h2 : List.orderedInsert (· ≤ ·) c (a :: t) = c :: a :: t := by
        simp only [List.orderedInsert, if_pos hca]
      rw [h2, List.take_succ_cons, List.take_succ_cons, hceq]
      congr 1
      -- both `(a :: t).take k` and `t.take k` consist of `k` copies of `a`
      have hhead := (List.sorted_cons.1 hs).1
      refine eq_of_all_eq (a := a) ?_ ?_ ?_
      · rw [List.length_take, List.length_take, List.length_cons]
        omega
      · intro x hx
        have hxk : x ∈ (a :: t).take (k + 1) := by
          have : (a :: t).take k = ((a :: t).take (k + 1)).take k := by
            rw [List.take_take]
            congr 1
            omega
          rw [this] at hx
          exact List.take_subset k _ hx
        have hxle : x ≤ a := hceq ▸ hle x hxk
        have hax : a ≤ x := by
          rcases List.mem_cons.1 (List.take_subset k (a :: t) hx) with h | h
          · exact le_of_eq h.symm
          · exact hhead x h
        exact le_antisymm hxle hax
      · intro x hx
        have hxk : x ∈ (a :: t).take (k + 1) := by
          rw [List.take_succ_cons]
          exact List.mem_cons_of_mem a hx
        have hxle : x ≤ a := hceq ▸ hle x hxk
        have hax : a ≤ x := hhead x (List.take_subset k t hx)
        exact le_antisymm hxle hax
    · have h2 : List.orderedInsert (· ≤ ·) c (a :: t) =
          a :: List.orderedInsert (· ≤ ·) c t := by
        simp only [List.orderedInsert, if_neg hca]
      rw [h2, List.take_succ_cons, List.take_succ_cons]
      congr 1
      refine orderedInsert_take_ge t k c (List.sorted_cons.1 hs).2 hkt ?_
      intro x hx
      refine hle x ?_
      rw [List.take_succ_cons]
      exact List.mem_cons_of_mem a hx

/-- Sorting `l ++ [c]` is inserting `c` into the sorted version of `l`. -/
lemma insertionSort_append_singleton (l : List ℚ) (c : ℚ) :
    List.insertionSort (· ≤ ·) (l ++ [c]) =
      List.orderedInsert (· ≤ ·) c (List.insertionSort (· ≤ ·) l) := by
  have hperm : List.Perm (List.insertionSort (· ≤ ·) (l ++ [c]))
      (List.orderedInsert (· ≤ ·) c (List.insertionSort (· ≤ ·) l)) := by
    refine List.Perm.trans (List.perm_insertionSort _ _) ?_
    refine List.Perm.trans List.perm_append_comm ?_
    refine List.Perm.trans ?_ (List.perm_orderedInsert _ c _).symm
    exact List.Perm.cons c (List.perm_insertionSort _ _).symm
  exact List.eq_of_perm_of_sorted hperm (List.sorted_insertionSort _ _)
    (List.Sorted.orderedInsert c _ (List.sorted_insertionSort _ _))

lemma dropLast_take (l : List ℚ) (k : ℕ) (hk : k ≤ l.length) :
    (l.take k).dropLast = l.take (k - 1) := by
  rw [List.dropLast_eq_take, List.length_take, List.take_take]
  congr 1
  omega

/-- Invariant of a `PhotonProcess` lookup in progress over candidate
distances `seen` that all lie strictly inside the initial bound `md2i`: the
retained multiset is the `k` smallest distances seen so far, and the
reported bound is the initial one below capacity, the farthest retained
distance from capacity on. -/
def ProcInv (k : ℕ) (md2i : ℚ) (seen : List ℚ) (st : ProcState) : Prop :=
  st.nLookup = k ∧
  st.found = kSmall k seen ∧
  st.md2 = if k ≤ seen.length then (kSmall k seen).getLastD 0 else md2i

lemma sorted_sort (l : List ℚ) : (List.insertionSort (· ≤ ·) l).Sorted (· ≤ ·) :=
  List.sorted_insertionSort _ l

lemma length_sort (l : List ℚ) : (List.insertionSort (· ≤ ·) l).length = l.length :=
  List.length_insertionSort (· ≤ ·) l

lemma sorted_take_sort (l : List ℚ) (n : ℕ) :
    ((List.insertionSort (· ≤ ·) l).take n).Sorted (· ≤ ·) :=
  (sorted_sort l).sublist (List.take_sublist n _)

lemma mem_take_of_mem_take_pred (L : List ℚ) (k : ℕ) {x : ℚ}
    (hx : x ∈ L.take (k - 1)) : x ∈ L.take k := by
  have h : L.take (k - 1) = (L.take k).take (k - 1) := by
    rw [List.take_take]
    congr 1
    omega
  rw [h] at hx
  exact List.take_subset (k - 1) _ hx

lemma procStep_inv {k : ℕ} {md2i : ℚ} {seen : List ℚ} {st : ProcState} {c : ℚ}
    (hk : 1 ≤ k) (hc : c < md2i) (h : ProcInv k md2i seen st) :
    ProcInv k md2i (seen ++ [c]) (lookupStep st c) := by
  obtain ⟨h1, h2, h3⟩ := h
  set L := List.insertionSort (· ≤ ·) seen with hL
  have hLlen : L.length = seen.length := length_sort seen
  have hLsorted : L.Sorted (· ≤ ·) := sorted_sort seen
  have hsortapp : List.insertionSort (· ≤ ·) (seen ++ [c]) =
      List.orderedInsert (· ≤ ·) c L := insertionSort_append_singleton seen c
  by_cases hfull : k ≤ seen.length
  · -- at capacity: `found` holds exactly `k` entries and `md2` is their max
    have hm : st.md2 = (L.take k).getLastD 0 := by
      rw [h3, if_pos hfull]
      rfl
    have hfoundlen : st.found.length = k := by
      rw [h2]
      unfold kSmall
      rw [List.length_take, hLlen]
      omega
    have hnotlt : ¬ st.found.length < st.nLookup := by
      rw [hfoundlen, h1]
      omega
    by_cases hguard : c < st.md2
    · -- processed: evict the maximum, insert the new candidate
      have hdl : st.found.dropLast = L.take (k - 1) := by
        rw [h2]
        unfold kSmall
        exact dropLast_take L k (by omega)
      have hstep : lookupStep st c =
          ⟨st.nLookup, List.orderedInsert (· ≤ ·) c (L.take (k - 1)),
            (List.orderedInsert (· ≤ ·) c (L.take (k - 1))).getLastD 0⟩ := by
        rw [lookupStep, if_pos hguard, procInsert, if_neg hnotlt, hdl]
      have hcm : ∀ x ∈ L.drop (k - 1), c < x := by
        intro x hx
        have hle := take_getLastD_le_drop L (k - 1) hLsorted (by omega) x hx
        have hk1 : k - 1 + 1 = k := by omega
        rw [hk1] at hle
        rw [hm] at hguard
        exact lt_of_lt_of_le hguard hle
      have hins : List.orderedInsert (· ≤ ·) c (L.take (k - 1)) =
          (List.orderedInsert (· ≤ ·) c L).take k := by
        have := orderedInsert_take_lt L (k - 1) c hLsorted (by omega) hcm
        have hk1 : k - 1 + 1 = k := by omega
        rwa [hk1] at this
      have hks : kSmall k (seen ++ [c]) = List.orderedInsert (· ≤ ·) c (L.take (k - 1)) := by
        unfold kSmall
        rw [hsortapp, hins]
      refine ⟨by rw [hstep, h1], by rw [hstep, hks], ?_⟩
      rw [hstep]
      have hcond : k ≤ (seen ++ [c]).length := by
        rw [List.length_append]
        omega
      rw [if_pos hcond, hks]
    · -- skipped: candidate at or beyond the current bound
      have hstep : lookupStep st c = st := by rw [lookupStep, if_neg hguard]
      have hge : ∀ x ∈ L.take k, x ≤ c := by
        intro x hx
        have hxm : x ≤ (L.take k).getLastD 0 :=
          le_getLastD_sorted (L.take k) (hLsorted.sublist (List.take_sublist k L)) x hx
        rw [← hm] at hxm
        exact le_trans hxm (not_lt.1 hguard)
      have hskip : (List.orderedInsert (· ≤ ·) c L).take k = L.take k :=
        orderedInsert_take_ge L k c hLsorted (by omega) hge
      have hks : kSmall k (seen ++ [c]) = kSmall k seen := by
        unfold kSmall
        rw [hsortapp, hskip]
      refine ⟨by rw [hstep, h1], by rw [hstep, h2, hks], ?_⟩
      rw [hstep, h3, if_pos hfull, hks]
      have hcond : k ≤ (seen ++ [c]).length := by
        rw [List.length_append]
        omega
      rw [if_pos hcond]
  · -- below capacity: the candidate is simply appended in order
    have hm : st.md2 = md2i := by rw [h3, if_neg hfull]
    have hguard : c < st.md2 := by rw [hm]; exact hc
    have htakeL : L.take k = L := List.take_of_length_le (by omega)
    have hfoundlen : st.found.length = seen.length := by
      rw [h2]
      unfold kSmall
      rw [List.length_take, hLlen]
      omega
    have hlt : st.found.length < st.nLookup := by
      rw [hfoundlen, h1]
      omega
    have hfound : st.found = L := by
      rw [h2]
      unfold kSmall
      rw [htakeL]
    have hinslen : (List.orderedInsert (· ≤ ·) c L).length = seen.length + 1 := by
      rw [List.orderedInsert_length, hLlen]
    have htakeIns : (List.orderedInsert (· ≤ ·) c L).take k =
        List.orderedInsert (· ≤ ·) c L :=
      List.take_of_length_le (by omega)
    have hks : kSmall k (seen ++ [c]) = List.orderedInsert (· ≤ ·) c L := by
      unfold kSmall
      rw [hsortapp, htakeIns]
    by_cases hreach : seen.length + 1 = k
    · have hbeq : ((List.orderedInsert (· ≤ ·) c L).length == st.nLookup) = true := by
        rw [hinslen, h1]
        exact beq_iff_eq.2 hreach
      have hstep : lookupStep st c =
          ⟨st.nLookup, List.orderedInsert (· ≤ ·) c L,
            (List.orderedInsert (· ≤ ·) c L).getLastD 0⟩ := by
        rw [lookupStep, if_pos hguard, procInsert, if_pos hlt, hfound, if_pos hbeq]
      refine ⟨by rw [hstep, h1], by rw [hstep, hks], ?_⟩
      rw [hstep]
      have hcond : k ≤ (seen ++ [c]).length := by
        rw [List.length_append]
        simp only [List.length_cons, List.length_nil]
        omega
      rw [if_pos hcond, hks]
    · have hbne : ¬ ((List.orderedInsert (· ≤ ·) c L).length == st.nLookup) = true := by
        rw [hinslen, h1]
        exact fun hcon => hreach (beq_iff_eq.1 hcon)
      have hstep : lookupStep st c =
          ⟨st.nLookup, List.orderedInsert (· ≤ ·) c L, st.md2⟩ := by
        rw [lookupStep, if_pos hguard, procInsert, if_pos hlt, hfound, if_neg hbne]
      refine ⟨by rw [hstep, h1], by rw [hstep, hks], ?_⟩
      rw [hstep]
      have hcond : ¬ k ≤ (seen ++ [c]).length := by
        rw [List.length_append]
        simp only [List.length_cons, List.length_nil]
        omega
      rw [if_neg hcond, hm]

lemma procFold_inv {k : ℕ} {md2i : ℚ} (hk : 1 ≤ k) :
    ∀ (cs seen : List ℚ) (st : ProcState), (∀ c ∈ cs, c < md2i) →
      ProcInv k md2i seen st → ProcInv k md2i (seen ++ cs) (cs.foldl lookupStep st)
  | [], seen, st, _, h => by simpa using h
  | c :: cs, seen, st, hcs, h => by
    have hstep := procStep_inv hk (hcs c (List.mem_cons_self c cs)) h
    have hrest := procFold_inv hk cs (seen ++ [c]) (lookupStep st c)
      (fun x hx => hcs x (List.mem_cons_of_mem c hx)) hstep
    simpa [List.append_assoc] using hrest

lemma lookupRun_inv {k : ℕ} {md2i : ℚ} (hk : 1 ≤ k) (cs : List ℚ)
    (hcs : ∀ c ∈ cs, c < md2i) : ProcInv k md2i cs (lookupRun k md2i cs) := by
  have h0 : ProcInv k md2i [] ⟨k, [], md2i⟩ := by
    refine ⟨rfl, by simp [kSmall], ?_⟩
    rw [if_neg (by simp; omega)]
  simpa using procFold_inv hk cs [] ⟨k, [], md2i⟩ hcs h0

/-- Appending one more candidate cannot increase the max of the `k` smallest
(`k` already filled). -/
lemma kSmall_getLastD_mono_step {k : ℕ} (hk : 1 ≤ k) (s : List ℚ) (c : ℚ)
    (hks : k ≤ s.length) :
    (kSmall k (s ++ [c])).getLastD 0 ≤ (kSmall k s).getLastD 0 := by
  set L := List.insertionSort (· ≤ ·) s with hL
  have hLlen : L.length = s.length := length_sort s
  have hLsorted : L.Sorted (· ≤ ·) := sorted_sort s
  have hsortapp : List.insertionSort (· ≤ ·) (s ++ [c]) =
      List.orderedInsert (· ≤ ·) c L := insertionSort_append_singleton s c
  have hksm : kSmall k s = L.take k := rfl
  set m := (L.take k).getLastD 0 with hm
  by_cases hcm : c < m
  · have hcm' : ∀ x ∈ L.drop (k - 1), c < x := by
      intro x hx
      have hle := take_getLastD_le_drop L (k - 1) hLsorted (by omega) x hx
      have hk1 : k - 1 + 1 = k := by omega
      rw [hk1] at hle
      exact lt_of_lt_of_le hcm hle
    have hins : List.orderedInsert (· ≤ ·) c (L.take (k - 1)) =
        (List.orderedInsert (· ≤ ·) c L).take k := by
      have := orderedInsert_take_lt L (k - 1) c hLsorted (by omega) hcm'
      have hk1 : k - 1 + 1 = k := by omega
      rwa [hk1] at this
    have hks2 : kSmall k (s ++ [c]) = List.orderedInsert (· ≤ ·) c (L.take (k - 1)) := by
      unfold kSmall
      rw [hsortapp, hins]
    rw [hks2, hksm]
    -- every entry of the new retained list is at most `m`
    have hmemle : ∀ x ∈ List.orderedInsert (· ≤ ·) c (L.take (k - 1)), x ≤ m := by
      intro x hx
      rcases (List.mem_orderedInsert _).1 hx with hx | hx
      · subst hx
        exact le_of_lt hcm
      · exact le_getLastD_sorted (L.take k)
          (hLsorted.sublist (List.take_sublist k L)) x (mem_take_of_mem_take_pred L k hx)
    have hne : List.orderedInsert (· ≤ ·) c (L.take (k - 1)) ≠ [] := by
      apply List.ne_nil_of_length_pos
      rw [List.orderedInsert_length]
      omega
    obtain ⟨y, u, hyu⟩ := List.exists_cons_of_ne_nil hne
    rw [hyu]
    exact hmemle _ (hyu ▸ getLastD_mem y u)
  · have hge : ∀ x ∈ L.take k, x ≤ c := by
      intro x hx
      exact le_trans (le_getLastD_sorted (L.take k)
        (hLsorted.sublist (List.take_sublist k L)) x hx) (not_lt.1 hcm)
    have hskip : (List.orderedInsert (· ≤ ·) c L).take k = L.take k :=
      orderedInsert_take_ge L k c hLsorted (by omega) hge
    have hks2 : kSmall k (s ++ [c]) = L.take k := by
      unfold kSmall
      rw [hsortapp, hskip]
    rw [hks2, hksm]

lemma kSmall_getLastD_mono {k : ℕ} (hk : 1 ≤ k) :
    ∀ (t s : List ℚ), k ≤ s.length →
      (kSmall k (s ++ t)).getLastD 0 ≤ (kSmall k s).getLastD 0
  | [], s, _ => by simp
  | c :: t, s, hks => by
    have h1 : (kSmall k ((s ++ [c]) ++ t)).getLastD 0 ≤ (kSmall k (s ++ [c])).getLastD 0 :=
      kSmall_getLastD_mono hk t (s ++ [c]) (by rw [List.length_append]; omega)
    have h2 := kSmall_getLastD_mono_step hk s c hks
    have h3 : (s ++ [c]) ++ t = s ++ (c :: t) := by simp
    rw [h3] at h1
    exact le_trans h1 h2

/-- C2: for any sequence of candidates processed by one `PhotonProcess`
collector with lookup bound `k ≥ 1`, all lying strictly inside the initial
search bound (the calling convention of `KdTree::Lookup`), the retained
squared distances after all insertions are exactly the `k` smallest among
all `N` candidates (all `N` of them when `N ≤ k`), the retained count after
any number of insertions is `min N k` and so never exceeds `k`, and once `k`
candidates have been seen the reported bound always equals the farthest
retained squared distance and never increases afterwards. -/
theorem photonProcess_k_smallest (k : ℕ) (md2i : ℚ) (cs : List ℚ)
    (hk : 1 ≤ k) (hcs : ∀ c ∈ cs, c < md2i) :
    (lookupRun k md2i cs).found = kSmall k cs ∧
    (∀ l₁ l₂ : List ℚ, cs = l₁ ++ l₂ →
      (lookupRun k md2i l₁).found.length = min l₁.length k) ∧
    (∀ l₁ l₂ : List ℚ, cs = l₁ ++ l₂ → k ≤ l₁.length →
      (lookupRun k md2i l₁).md2 = (lookupRun k md2i l₁).found.getLastD 0 ∧
      (lookupRun k md2i cs).md2 ≤ (lookupRun k md2i l₁).md2) := by
  obtain ⟨-, hfound, hmd⟩ := lookupRun_inv hk cs hcs
  refine ⟨hfound, ?_, ?_⟩
  · intro l₁ l₂ hsplit
    have hcs1 : ∀ c ∈ l₁, c < md2i := fun c hc =>
      hcs c (hsplit ▸ List.mem_append.2 (Or.inl hc))
    obtain ⟨-, hfound1, -⟩ := lookupRun_inv hk l₁ hcs1
    rw [hfound1]
    unfold kSmall
    rw [List.length_take, length_sort]
    omega
  · intro l₁ l₂ hsplit hk1
    have hcs1 : ∀ c ∈ l₁, c < md2i := fun c hc =>
      hcs c (hsplit ▸ List.mem_append.2 (Or.inl hc))
    obtain ⟨-, hfound1, hmd1⟩ := lookupRun_inv hk l₁ hcs1
    constructor
    · rw [hmd1, if_pos hk1, hfound1]
    · rw [hmd1, if_pos hk1, hmd, if_pos (by rw [hsplit, List.length_append]; omega), hsplit]
      exact kSmall_getLastD_mono hk l₂ l₁ hk1

/-- Witness for C2's theorem: candidates `[9, 1, 5, 3]` inside initial bound
`100` with `k = 2`; the retained distances are `[1, 3]`, the bound after the
first two candidates is `9` and the final bound `3` has not increased. -/
theorem photonProcess_k_smallest_witness :
    (lookupRun 2 100 [9, 1, 5, 3]).found = kSmall 2 [9, 1, 5, 3] ∧
    (lookupRun 2 100 [9, 1]).found.length = min 2 2 ∧
    (lookupRun 2 100 [9, 1]).md2 = (lookupRun 2 100 [9, 1]).found.getLastD 0 ∧
    (lookupRun 2 100 [9, 1, 5, 3]).md2 ≤ (lookupRun 2 100 [9, 1]).md2 := by
  have h := photonProcess_k_smallest 2 100 [9, 1, 5, 3] (by norm_num)
    (by intro c hc; fin_cases hc <;> norm_num)
  have h2 := h.2.1 [9, 1] [5, 3] rfl
  have h3 := h.2.2 [9, 1] [5, 3] rfl (by norm_num)
  exact ⟨h.1, by simpa using h2, h3.1, h3.2⟩

/-!
### The final-gather neighbor search of `Surface_Li` (claim C6)

When final gathering is enabled and the shading point's BSDF has a
non-specular component, `Surface_Li` runs
`while (proc.foundPhotons < nIndirSamplePhotons) { float md2 = searchDist2;
proc.foundPhotons = 0; indirectMap->Lookup(p, proc, md2);
searchDist2 *= 2.f; }` with `nIndirSamplePhotons = 50`.  Each iteration is a
fresh bounded lookup (`foundPhotons` is reset); the loop has no exit other
than its guard, so it is modelled with explicit fuel: `none` means the loop
is still running after that many iterations.  The indirect map is reduced
to the list of its photons' squared distances to the shading point.
-/
def foundCount (ds : List ℚ) (r2 : ℚ) : ℕ :=
  (lookupRun 50 r2 ds).found.length

def gatherLoop (ds : List ℚ) : ℚ → ℕ → Option (ℕ × ℚ)
  | _, 0 => none
  | r2, fuel + 1 =>
    if foundCount ds r2 < 50 then gatherLoop ds (2 * r2) fuel
    else some (foundCount ds r2, r2)

lemma lookupStep_length_le (st : ProcState) (c : ℚ) :
    (lookupStep st c).found.length ≤ st.found.length + 1 := by
  rw [lookupStep]
  by_cases hg : c < st.md2
  · rw [if_pos hg, procInsert]
    by_cases hlt : st.found.length < st.nLookup
    · rw [if_pos hlt]
      by_cases hbeq : ((List.orderedInsert (· ≤ ·) c st.found).length == st.nLookup) = true
      · rw [if_pos hbeq]
        show (List.orderedInsert (· ≤ ·) c st.found).length ≤ st.found.length + 1
        rw [List.orderedInsert_length]
      · rw [if_neg hbeq]
        show (List.orderedInsert (· ≤ ·) c st.found).length ≤ st.found.length + 1
        rw [List.orderedInsert_length]
    · rw [if_neg hlt]
      show (List.orderedInsert (· ≤ ·) c st.found.dropLast).length ≤ st.found.length + 1
      rw [List.orderedInsert_length, List.length_dropLast]
      omega
  · rw [if_neg hg]
    omega

lemma foldl_lookupStep_length_le :
    ∀ (cs : List ℚ) (st : ProcState),
      (cs.foldl lookupStep st).found.length ≤ st.found.length + cs.length
  | [], st => by simp
  | c :: cs, st => by
    have h1 := foldl_lookupStep_length_le cs (lookupStep st c)
    have h2 := lookupStep_length_le st c
    simp only [List.foldl_cons, List.length_cons]
    omega

lemma foundCount_le_length (ds : List ℚ) (r2 : ℚ) : foundCount ds r2 ≤ ds.length := by
  have := foldl_lookupStep_length_le ds ⟨50, [], r2⟩
  simpa [foundCount, lookupRun] using this

lemma foundCount_all_within {ds : List ℚ} {r2 : ℚ} (h : ∀ d ∈ ds, d < r2) :
    foundCount ds r2 = min 50 ds.length := by
  obtain ⟨-, hfound, -⟩ := lookupRun_inv (k := 50) (by omega) ds h
  unfold foundCount
  rw [hfound]
  unfold kSmall
  rw [List.length_take, length_sort]

lemma gatherLoop_under_populated {ds : List ℚ} (hlt : ds.length < 50) :
    ∀ (fuel : ℕ) (r2 : ℚ), gatherLoop ds r2 fuel = none
  | 0, r2 => rfl
  | fuel + 1, r2 => by
    have hcnt : foundCount ds r2 < 50 :=
      lt_of_le_of_lt (foundCount_le_length ds r2) hlt
    rw [gatherLoop, if_pos hcnt]
    exact gatherLoop_under_populated hlt fuel (2 * r2)

lemma gatherLoop_reaches : ∀ (m : ℕ) (ds : List ℚ) (r2 : ℚ),
    50 ≤ foundCount ds (2 ^ m * r2) →
    ∃ r2f, gatherLoop ds r2 (m + 1) = some (foundCount ds r2f, r2f) ∧
      50 ≤ foundCount ds r2f
  | 0, ds, r2, hfc => by
    rw [pow_zero, one_mul] at hfc
    refine ⟨r2, ?_, hfc⟩
    rw [gatherLoop, if_neg (by omega)]
  | m + 1, ds, r2, hfc => by
    by_cases hcnt : foundCount ds r2 < 50
    · have hshift : (2 : ℚ) ^ (m + 1) * r2 = 2 ^ m * (2 * r2) := by ring
      rw [hshift] at hfc
      obtain ⟨r2f, hloop, hge⟩ := gatherLoop_reaches m ds (2 * r2) hfc
      exact ⟨r2f, by rw [gatherLoop, if_pos hcnt]; exact hloop, hge⟩
    · refine ⟨r2, ?_, by omega⟩
      rw [gatherLoop, if_neg hcnt]

lemma listMaxQ_le : ∀ (ds : List ℚ) (d : ℚ), d ∈ ds → d ≤ ds.foldr max 0
  | c :: cs, d, hd => by
    rcases List.mem_cons.1 hd with hd | hd
    · subst hd
      exact le_max_left d (cs.foldr max 0)
    · exact le_trans (listMaxQ_le cs d hd) (le_max_right c (cs.foldr max 0))

lemma lookupStep_length_le_cap {st : ProcState} (hk : 1 ≤ st.nLookup)
    (hle : st.found.length ≤ st.nLookup) (c : ℚ) :
    (lookupStep st c).found.length ≤ st.nLookup ∧
      (lookupStep st c).nLookup = st.nLookup := by
  rw [lookupStep]
  by_cases hg : c < st.md2
  · rw [if_pos hg, procInsert]
    by_cases hlt : st.found.length < st.nLookup
    · rw [if_pos hlt]
      by_cases hbeq : ((List.orderedInsert (· ≤ ·) c st.found).length == st.nLookup) = true
      · rw [if_pos hbeq]
        refine ⟨?_, rfl⟩
        show (List.orderedInsert (· ≤ ·) c st.found).length ≤ st.nLookup
        rw [List.orderedInsert_length]
        omega
      · rw [if_neg hbeq]
        refine ⟨?_, rfl⟩
        show (List.orderedInsert (· ≤ ·) c st.found).length ≤ st.nLookup
        rw [List.orderedInsert_length]
        omega
    · rw [if_neg hlt]
      refine ⟨?_, rfl⟩
      show (List.orderedInsert (· ≤ ·) c st.found.dropLast).length ≤ st.nLookup
      rw [List.orderedInsert_length, List.length_dropLast]
      omega
  · rw [if_neg hg]
    exact ⟨hle, rfl⟩

lemma foldl_lookupStep_cap :
    ∀ (cs : List ℚ) (st : ProcState), 1 ≤ st.nLookup → st.found.length ≤ st.nLookup →
      (cs.foldl lookupStep st).found.length ≤ st.nLookup
  | [], _, _, hle => hle
  | c :: cs, st, hk, hle => by
    obtain ⟨h1, h2⟩ := lookupStep_length_le_cap hk hle c
    have := foldl_lookupStep_cap cs (lookupStep st c) (by omega) (by omega)
    simp only [List.foldl_cons]
    omega

lemma foundCount_le_50 (ds : List ℚ) (r2 : ℚ) : foundCount ds r2 ≤ 50 := by
  have := foldl_lookupStep_cap ds ⟨50, [], r2⟩ (by simp) (by simp)
  simpa [foundCount, lookupRun] using this

/-- C6 (amended): with final gather enabled at a point whose BSDF has a
non-specular component, the neighbor-sample search doubles the squared
search radius against the indirect map until one lookup finds 50 photon
directions; this terminates (reporting exactly 50 directions) whenever the
indirect map holds at least 50 photons and the initial squared radius is
positive, but when the indirect map holds fewer than 50 photons the loop
guard `proc.foundPhotons < 50` can never become false and the search never
terminates: an under-populated or empty indirect map hangs the shading
query instead of yielding a zero contribution. -/
theorem finalGather_radius_doubling (ds : List ℚ) (r2 : ℚ) :
    (50 ≤ ds.length → 0 < r2 →
      ∃ n cnt r2f, gatherLoop ds r2 n = some (cnt, r2f) ∧ cnt = 50) ∧
    (ds.length < 50 → ∀ n, gatherLoop ds r2 n = none) := by
  constructor
  · intro hlen hr2
    obtain ⟨m, hm⟩ := pow_unbounded_of_one_lt (ds.foldr max 0 / r2) (one_lt_two (α := ℚ))
    have hall : ∀ d ∈ ds, d < 2 ^ m * r2 := by
      intro d hd
      have h1 : ds.foldr max 0 < 2 ^ m * r2 := (div_lt_iff₀ hr2).1 hm
      exact lt_of_le_of_lt (listMaxQ_le ds d hd) h1
    have hfc : foundCount ds (2 ^ m * r2) = 50 := by
      rw [foundCount_all_within hall]
      exact min_eq_left hlen
    obtain ⟨r2f, hloop, hge⟩ := gatherLoop_reaches m ds r2 (by omega)
    have hle := foundCount_le_50 ds r2f
    exact ⟨m + 1, foundCount ds r2f, r2f, hloop, by omega⟩
  · intro hlt n
    exact gatherLoop_under_populated hlt n r2

/-- Witness for C6's theorem: with 50 photons at the query point the search
succeeds, and on an empty map any amount of fuel leaves it running. -/
theorem finalGather_radius_doubling_witness :
    (∃ n cnt r2f, gatherLoop (List.replicate 50 (0 : ℚ)) 1 n = some (cnt, r2f) ∧
      cnt = 50) ∧
    gatherLoop [] 1 5 = none := by
  constructor
  · exact (finalGather_radius_doubling (List.replicate 50 (0 : ℚ)) 1).1
      (by simp) (by norm_num)
  · exact (finalGather_radius_doubling [] 1).2 (by simp) 5

/-- Counterexample for C6 as stated: on an empty indirect map the
radius-doubling search never returns, for any number of iterations, so an
empty or under-populated map does not yield a zero contribution - the
shading query does not terminate. -/
theorem finalGather_empty_map_never_returns :
    ¬ ∃ (n : ℕ) (res : ℕ × ℚ), gatherLoop [] 1 n = some res := by
  rintro ⟨n, res, hres⟩
  rw [gatherLoop_under_populated (by simp) n 1] at hres
  cases hres

/-!
### The shooting loop of `Surface_Preprocess` (claims C1, C5)

One iteration of `while (!causticDone || !indirectDone || !volumeDone)`:
`++nshot`; the stall test
`nshot > 500000 && (unsuccessful(caustic) || unsuccessful(indirect) ||
unsuccessful(volume))` aborting with an `Error(...)` call that names the
three stored counts; otherwise one photon path is traced.  For the purposes
of the per-category bookkeeping a path is abstracted by the sequence of
gated deposits it performs (caustic and indirect deposits in the surface
loop, volume deposits inside `TraceThrough`), each of which is a
`catDeposit` at the current `nshot`.  A shot whose light sample is rejected
(`pdf == 0 || alpha.Black()`) is a shot with no deposits.
-/
inductive PCat
  | caustic
  | indirect
  | volume
deriving DecidableEq

/-- One traced path, abstracted to its gated category deposits in order. -/
abbrev Shot := List PCat

structure ShootState where
  nshot : ℕ
  caustic : CatState
  indirect : CatState
  volume : CatState
deriving DecidableEq

def getCat (s : ShootState) : PCat → CatState
  | .caustic => s.caustic
  | .indirect => s.indirect
  | .volume => s.volume

def initShootState (ncaus nindir nvol : ℕ) : ShootState :=
  ⟨0, catInit ncaus, catInit nindir, catInit nvol⟩

/-- One deposit during a path traced at the current `nshot`. -/
def applyEvent (s : ShootState) : PCat → ShootState
  | .caustic => { s with caustic := catDeposit s.nshot s.caustic }
  | .indirect => { s with indirect := catDeposit s.nshot s.indirect }
  | .volume => { s with volume := catDeposit s.nshot s.volume }

/-- One full shot: `++nshot`, then the path's deposits. -/
def doShot (s : ShootState) (es : Shot) : ShootState :=
  es.foldl applyEvent { s with nshot := s.nshot + 1 }

/-- `Surface_Preprocess`' shooting loop without its exits, as a plain fold. -/
def foldShots (s : ShootState) (ts : List Shot) : ShootState :=
  ts.foldl doShot s

/-- `unsuccessful(needed, found, shot)` from `VolumePhotonMap`:
`found < needed && (found == 0 || found < shot / 1024)` (integer division). -/
def unsuccessful (needed found shot : ℕ) : Bool :=
  found < needed && (found == 0 || found < shot / 1024)

def allDone (s : ShootState) : Bool :=
  s.caustic.done && s.indirect.done && s.volume.done

/-- The stall test at the top of a loop iteration (after `++nshot`). -/
def stallB (s : ShootState) : Bool :=
  500000 < s.nshot &&
    (unsuccessful s.caustic.target s.caustic.stored s.nshot ||
     unsuccessful s.indirect.target s.indirect.stored s.nshot ||
     unsuccessful s.volume.target s.volume.stored s.nshot)

/-- Result of running the shooting loop: normal completion, the stall abort
(carrying the three stored counts named by the `Error(...)` call and the
state at the abort), or exhaustion of the supplied trace of shots. -/
inductive RunResult
  | finished (s : ShootState)
  | stalled (ncaus nindir nvol : ℕ) (s : ShootState)
  | exhausted (s : ShootState)
deriving DecidableEq

/-- The shooting loop of `Surface_Preprocess`, driven by a trace of shots. -/
def runShots (s : ShootState) : List Shot → RunResult
  | [] => if allDone s then .finished s else .exhausted s
  | es :: ts =>
    if allDone s then .finished s
    else
      if stallB { s with nshot := s.nshot + 1 } then
        .stalled ({ s with nshot := s.nshot + 1 }).caustic.stored
          ({ s with nshot := s.nshot + 1 }).indirect.stored
          ({ s with nshot := s.nshot + 1 }).volume.stored
          { s with nshot := s.nshot + 1 }
      else runShots (doShot s es) ts

/-- Reachability invariant of one category's bookkeeping: the stored count
never exceeds the target, the done flag holds exactly at the target, a map
exists (with one construction) exactly for completed categories with nonzero
target, and a zero-target category never stores or builds anything. -/
def CatInv (c : CatState) : Prop :=
  c.stored ≤ c.target ∧
  (c.done = true ↔ c.stored = c.target) ∧
  ((c.done = true ∧ c.target ≠ 0) → (c.builds = 1 ∧ c.paths ≠ none)) ∧
  (c.done = false → (c.builds = 0 ∧ c.paths = none)) ∧
  (c.target = 0 → (c.builds = 0 ∧ c.paths = none ∧ c.stored = 0))

lemma catInit_inv (t : ℕ) : CatInv (catInit t) := by
  unfold CatInv catInit
  by_cases ht : t = 0
  · subst ht
    refine ⟨le_refl 0, by simp, ?_, by simp, by simp⟩
    intro h
    exact absurd rfl h.2
  · refine ⟨Nat.zero_le t, ?_, ?_, by simp, fun h => absurd h ht⟩
    · simp only [beq_iff_eq]
      constructor <;> intro h <;> omega
    · intro h
      have h' := beq_iff_eq.1 h.1
      omega

lemma catDeposit_done {c : CatState} (h : c.done = true) (shot : ℕ) :
    catDeposit shot c = c := by
  unfold catDeposit
  rw [h]
  rfl

lemma catDeposit_target (shot : ℕ) (c : CatState) :
    (catDeposit shot c).target = c.target := by
  unfold catDeposit
  by_cases h : c.done
  · rw [if_pos h]
  · rw [if_neg h]
    by_cases hb : (c.stored + 1 == c.target) = true
    · rw [if_pos hb]
    · rw [if_neg hb]

lemma catDeposit_inv {c : CatState} (h : CatInv c) (shot : ℕ) :
    CatInv (catDeposit shot c) := by
  obtain ⟨h1, h2, h3, h4, h5⟩ := h
  unfold catDeposit
  by_cases hdone : c.done
  · rw [if_pos hdone]
    exact ⟨h1, h2, h3, h4, h5⟩
  · rw [if_neg hdone]
    have hdf : c.done = false := by
      cases hdc : c.done
      · rfl
      · exact absurd hdc hdone
    have hne : c.stored ≠ c.target := fun hcon => by
      rw [hdf] at h2
      exact Bool.false_ne_true (h2.2 hcon)
    have hlt : c.stored < c.target := lt_of_le_of_ne h1 hne
    have htz : c.target ≠ 0 := by omega
    obtain ⟨hb0, hp0⟩ := h4 hdf
    by_cases hb : (c.stored + 1 == c.target) = true
    · rw [if_pos hb]
      have heq : c.stored + 1 = c.target := beq_iff_eq.1 hb
      refine ⟨?_, by simp [heq], ?_, by simp, fun hz => absurd hz htz⟩
      · show c.stored + 1 ≤ c.target
        omega
      · intro _
        simp [hb0]
    · rw [if_neg hb]
      have hne1 : c.stored + 1 ≠ c.target := fun hcon => hb (beq_iff_eq.2 hcon)
      refine ⟨?_, ?_, ?_, fun _ => ⟨hb0, hp0⟩, fun hz => absurd hz htz⟩
      case _ =>
        show c.stored + 1 ≤ c.target
        omega
      · rw [hdf]
        simp only [Bool.false_eq_true, false_iff]
        exact hne1
      · intro hcon
        rw [hdf] at hcon
        exact absurd hcon.1 Bool.false_ne_true

/-- The only way a deposit creates a map: the target is reached right now,
the paths constant records the current shot, and one construction happens. -/
lemma catDeposit_builds {c : CatState} {shot j : ℕ}
    (h0 : c.paths = none) (hj : (catDeposit shot c).paths = some j) :
    j = shot ∧ (catDeposit shot c).done = true ∧
    (catDeposit shot c).stored = c.target ∧
    (catDeposit shot c).builds = c.builds + 1 := by
  unfold catDeposit at hj ⊢
  by_cases hdone : c.done
  · rw [if_pos hdone] at hj
    rw [h0] at hj
    cases hj
  · rw [if_neg hdone] at hj
    rw [if_neg hdone]
    by_cases hb : (c.stored + 1 == c.target) = true
    · rw [if_pos hb] at hj
      rw [if_pos hb]
      simp only [Option.some.injEq] at hj
      exact ⟨hj.symm, rfl, beq_iff_eq.1 hb, rfl⟩
    · rw [if_neg hb] at hj
      rw [h0] at hj
      cases hj

/-- A deposit that does not create a map changes neither `paths` nor
`builds`. -/
lemma catDeposit_no_build {c : CatState} {shot : ℕ}
    (_h0 : c.paths = none) (hj : (catDeposit shot c).paths = none) :
    (catDeposit shot c).builds = c.builds := by
  unfold catDeposit at hj ⊢
  by_cases hdone : c.done
  · rw [if_pos hdone] at hj ⊢
  · rw [if_neg hdone] at hj ⊢
    by_cases hb : (c.stored + 1 == c.target) = true
    · rw [if_pos hb] at hj
      cases hj
    · rw [if_neg hb] at hj ⊢

def ShootInv (s : ShootState) : Prop := ∀ c : PCat, CatInv (getCat s c)

lemma initShootState_inv (a b v : ℕ) : ShootInv (initShootState a b v) := by
  intro c
  cases c <;> exact catInit_inv _

lemma getCat_nshot (s : ShootState) (n : ℕ) (c : PCat) :
    getCat { s with nshot := n } c = getCat s c := by
  cases c <;> rfl

lemma applyEvent_nshot (s : ShootState) (e : PCat) : (applyEvent s e).nshot = s.nshot := by
  cases e <;> rfl

lemma applyEvent_getCat (s : ShootState) (e c : PCat) :
    getCat (applyEvent s e) c =
      if e = c then catDeposit s.nshot (getCat s c) else getCat s c := by
  cases e <;> cases c <;> simp [applyEvent, getCat]

lemma foldl_applyEvent_nshot :
    ∀ (es : Shot) (s : ShootState), (es.foldl applyEvent s).nshot = s.nshot
  | [], _ => rfl
  | e :: es, s => by
    rw [List.foldl_cons, foldl_applyEvent_nshot es, applyEvent_nshot]

lemma doShot_nshot (s : ShootState) (es : Shot) : (doShot s es).nshot = s.nshot + 1 := by
  unfold doShot
  rw [foldl_applyEvent_nshot]

lemma foldShots_nshot :
    ∀ (ts : List Shot) (s : ShootState), (foldShots s ts).nshot = s.nshot + ts.length
  | [], _ => rfl
  | es :: ts, s => by
    show (foldShots (doShot s es) ts).nshot = s.nshot + (es :: ts).length
    rw [foldShots_nshot ts, doShot_nshot]
    simp
    omega

lemma foldl_applyEvent_inv :
    ∀ (es : Shot) (s : ShootState), ShootInv s → ShootInv (es.foldl applyEvent s)
  | [], _, h => h
  | e :: es, s, h => by
    refine foldl_applyEvent_inv es (applyEvent s e) ?_
    intro c
    rw [applyEvent_getCat]
    by_cases hec : e = c
    · rw [if_pos hec]
      exact catDeposit_inv (h c) _
    · rw [if_neg hec]
      exact h c

lemma doShot_inv {s : ShootState} (h : ShootInv s) (es : Shot) : ShootInv (doShot s es) := by
  refine foldl_applyEvent_inv es _ ?_
  intro c
  rw [getCat_nshot]
  exact h c

lemma foldShots_inv :
    ∀ (ts : List Shot) (s : ShootState), ShootInv s → ShootInv (foldShots s ts)
  | [], _, h => h
  | es :: ts, s, h => foldShots_inv ts (doShot s es) (doShot_inv h es)

lemma foldl_applyEvent_done :
    ∀ (es : Shot) (s : ShootState) (c : PCat), (getCat s c).done = true →
      getCat (es.foldl applyEvent s) c = getCat s c
  | [], _, _, _ => rfl
  | e :: es, s, c, h => by
    have hstep : getCat (applyEvent s e) c = getCat s c := by
      rw [applyEvent_getCat]
      by_cases hec : e = c
      · rw [if_pos hec, catDeposit_done h]
      · rw [if_neg hec]
    rw [List.foldl_cons, foldl_applyEvent_done es (applyEvent s e) c (by rw [hstep]; exact h),
      hstep]

lemma doShot_done {s : ShootState} {c : PCat} (h : (getCat s c).done = true) (es : Shot) :
    getCat (doShot s es) c = getCat s c := by
  unfold doShot
  rw [foldl_applyEvent_done es _ c (by rw [getCat_nshot]; exact h), getCat_nshot]

lemma foldShots_append (s : ShootState) (ts : List Shot) (es : Shot) :
    foldShots s (ts ++ [es]) = doShot (foldShots s ts) es := by
  unfold foldShots
  rw [List.foldl_append]
  rfl

/-- Within one shot (the `nshot` field is constant across a path's
deposits), if a category starts with no map and ends with `paths = some j`,
then the map was built during this very shot: `j` is the current `nshot`,
the final state is complete with `stored = target`, and exactly one
construction was added. -/
lemma shot_paths_trans :
    ∀ (es : Shot) (s : ShootState) (c : PCat) (j : ℕ),
      (getCat s c).paths = none →
      (getCat (es.foldl applyEvent s) c).paths = some j →
      j = s.nshot ∧ (getCat (es.foldl applyEvent s) c).done = true ∧
      (getCat (es.foldl applyEvent s) c).stored = (getCat s c).target ∧
      (getCat (es.foldl applyEvent s) c).builds = (getCat s c).builds + 1
  | [], s, c, j, h0, hj => by
    rw [List.foldl_nil] at hj
    rw [h0] at hj
    cases hj
  | e :: es, s, c, j, h0, hj => by
    rw [List.foldl_cons] at hj ⊢
    by_cases hmid : (getCat (applyEvent s e) c).paths = none
    · obtain ⟨hje, hdone, hstored, hbuilds⟩ := shot_paths_trans es (applyEvent s e) c j hmid hj
      have htgt : (getCat (applyEvent s e) c).target = (getCat s c).target := by
        rw [applyEvent_getCat]
        by_cases hec : e = c
        · rw [if_pos hec, catDeposit_target]
        · rw [if_neg hec]
      have hbs : (getCat (applyEvent s e) c).builds = (getCat s c).builds := by
        rw [applyEvent_getCat] at hmid ⊢
        by_cases hec : e = c
        · rw [if_pos hec] at hmid ⊢
          exact catDeposit_no_build h0 hmid
        · rw [if_neg hec]
      have hns : (applyEvent s e).nshot = s.nshot := applyEvent_nshot s e
      rw [hns] at hje
      rw [htgt] at hstored
      rw [hbs] at hbuilds
      exact ⟨hje, hdone, hstored, hbuilds⟩
    · -- the map was built by this very deposit
      obtain ⟨j', hj'⟩ := Option.ne_none_iff_exists'.1 hmid
      have hec : e = c := by
        by_contra hne
        rw [applyEvent_getCat, if_neg hne, h0] at hj'
        cases hj'
      rw [applyEvent_getCat, if_pos hec] at hj'
      obtain ⟨hjs, hdone, hstored, hbuilds⟩ := catDeposit_builds h0 hj'
      have hfrozen : getCat (es.foldl applyEvent (applyEvent s e)) c =
          getCat (applyEvent s e) c := by
        refine foldl_applyEvent_done es _ c ?_
        rw [applyEvent_getCat, if_pos hec]
        exact hdone
      rw [hfrozen] at hj ⊢
      rw [applyEvent_getCat, if_pos hec] at hj ⊢
      rw [hj'] at hj
      simp only [Option.some.injEq] at hj
      refine ⟨by omega, hdone, ?_, ?_⟩
      · rw [hstored]
      · rw [hbuilds]

lemma foldl_applyEvent_target :
    ∀ (es : Shot) (s : ShootState) (c : PCat),
      (getCat (es.foldl applyEvent s) c).target = (getCat s c).target
  | [], _, _ => rfl
  | e :: es, s, c => by
    rw [List.foldl_cons, foldl_applyEvent_target es, applyEvent_getCat]
    by_cases hec : e = c
    · rw [if_pos hec, catDeposit_target]
    · rw [if_neg hec]

lemma foldShots_target :
    ∀ (ts : List Shot) (s : ShootState) (c : PCat),
      (getCat (foldShots s ts) c).target = (getCat s c).target
  | [], _, _ => rfl
  | es :: ts, s, c => by
    show (getCat (foldShots (doShot s es) ts) c).target = _
    rw [foldShots_target ts, doShot]
    rw [foldl_applyEvent_target, getCat_nshot]

/-- The "moment" property for one category along a run: either no map has
been built, or the map records exactly the index of the shot during which
the target count was reached, with the single construction happening then. -/
def Mom (s0 : ShootState) (c : PCat) (ts : List Shot) : Prop :=
  (getCat (foldShots s0 ts) c).paths = none ∨
  ∃ j, 1 ≤ j ∧ j ≤ ts.length ∧
    (getCat (foldShots s0 ts) c).paths = some j ∧
    (getCat (foldShots s0 (ts.take j)) c).done = true ∧
    (getCat (foldShots s0 (ts.take j)) c).stored = (getCat s0 c).target ∧
    (getCat (foldShots s0 (ts.take j)) c).builds = 1 ∧
    (getCat (foldShots s0 (ts.take j)) c).paths = some j ∧
    (getCat (foldShots s0 (ts.take (j - 1))) c).stored < (getCat s0 c).target ∧
    (getCat (foldShots s0 (ts.take (j - 1))) c).builds = 0

lemma done_of_paths_some {cat : CatState} (hinv : CatInv cat) {j : ℕ}
    (hp : cat.paths = some j) : cat.done = true := by
  cases hd : cat.done
  · obtain ⟨-, hpnone⟩ := hinv.2.2.2.1 hd
    rw [hpnone] at hp
    cases hp
  · rfl

lemma mom_append {s0 : ShootState} (hInv : ShootInv s0) (hns : s0.nshot = 0)
    (c : PCat) (ts : List Shot) (es : Shot) (h : Mom s0 c ts) :
    Mom s0 c (ts ++ [es]) := by
  have hFinv : ShootInv (foldShots s0 ts) := foldShots_inv ts s0 hInv
  rcases h with hnone | ⟨j, hj1, hjlen, hpaths, hdone, hstored, hbuilds, hpj, hlt, hb0⟩
  · by_cases hnew : (getCat (foldShots s0 (ts ++ [es])) c).paths = none
    · exact Or.inl hnew
    · right
      rw [foldShots_append] at hnew
      obtain ⟨j, hj⟩ := Option.ne_none_iff_exists'.1 hnew
      -- the map was built during this shot
      have hs1 : getCat { foldShots s0 ts with nshot := (foldShots s0 ts).nshot + 1 } c =
          getCat (foldShots s0 ts) c := getCat_nshot _ _ c
      have hnone1 : (getCat { foldShots s0 ts with
          nshot := (foldShots s0 ts).nshot + 1 } c).paths = none := by
        rw [hs1]
        exact hnone
      obtain ⟨hjn, hdone, hstored, hbuilds⟩ :=
        shot_paths_trans es _ c j hnone1 (by unfold doShot at hj; exact hj)
      have hnsf : (foldShots s0 ts).nshot = ts.length := by
        rw [foldShots_nshot, hns]
        omega
      have hjval : j = ts.length + 1 := by
        rw [hjn]
        show ({ foldShots s0 ts with nshot := (foldShots s0 ts).nshot + 1 }).nshot = _
        rw [hnsf]
      -- the category was pending and mapless before this shot
      have hcatF := hFinv c
      have hdf : (getCat (foldShots s0 ts) c).done = false := by
        cases hd : (getCat (foldShots s0 ts) c).done
        · rfl
        · -- a completed category never gains a map later
          by_cases htz : (getCat (foldShots s0 ts) c).target = 0
          · have hdz : (getCat { foldShots s0 ts with
                nshot := (foldShots s0 ts).nshot + 1 } c).done = true := by
              rw [hs1]; exact hd
            have hfr := foldl_applyEvent_done es _ c hdz
            unfold doShot at hj
            rw [hfr, hs1, hnone] at hj
            cases hj
          · have hdz : (getCat { foldShots s0 ts with
                nshot := (foldShots s0 ts).nshot + 1 } c).done = true := by
              rw [hs1]; exact hd
            have hfr := foldl_applyEvent_done es _ c hdz
            unfold doShot at hj
            rw [hfr, hs1, hnone] at hj
            cases hj
      obtain ⟨hbF, -⟩ := hcatF.2.2.2.1 hdf
      have hsltF : (getCat (foldShots s0 ts) c).stored < (getCat s0 c).target := by
        have h1 := hcatF.1
        have h2 : (getCat (foldShots s0 ts) c).stored ≠ (getCat (foldShots s0 ts) c).target :=
          fun hcon => by
            have hiff := hcatF.2.1
            rw [hdf] at hiff
            exact Bool.false_ne_true (hiff.2 hcon)
        have h3 := foldShots_target ts s0 c
        omega
      have htgt1 : (getCat { foldShots s0 ts with
          nshot := (foldShots s0 ts).nshot + 1 } c).target = (getCat s0 c).target := by
        rw [hs1]
        exact foldShots_target ts s0 c
      have htake : (ts ++ [es]).take j = ts ++ [es] := by
        rw [hjval]
        have : ts.length + 1 = (ts ++ [es]).length := by simp
        rw [this, List.take_length]
      have htake1 : (ts ++ [es]).take (j - 1) = ts := by
        rw [hjval]
        simp only [Nat.add_sub_cancel]
        rw [List.take_append_of_le_length (le_refl ts.length), List.take_length]
      refine ⟨j, by omega, by simp [hjval], ?_, ?_, ?_, ?_, ?_, ?_, ?_⟩
      · rw [foldShots_append]
        unfold doShot
        exact hj
      · rw [htake, foldShots_append]
        unfold doShot
        exact hdone
      · rw [htake, foldShots_append]
        unfold doShot
        rw [hstored, htgt1]
      · rw [htake, foldShots_append]
        unfold doShot
        rw [hbuilds, hs1, hbF]
      · rw [htake, foldShots_append]
        unfold doShot
        exact hj
      · rw [htake1]
        exact hsltF
      · rw [htake1]
        exact hbF
  · -- the map already exists and everything is frozen
    right
    have hdoneF : (getCat (foldShots s0 ts) c).done = true :=
      done_of_paths_some (hFinv c) hpaths
    have hfr : getCat (foldShots s0 (ts ++ [es])) c = getCat (foldShots s0 ts) c := by
      rw [foldShots_append]
      exact doShot_done hdoneF es
    have htk : (ts ++ [es]).take j = ts.take j :=
      List.take_append_of_le_length hjlen
    have htk1 : (ts ++ [es]).take (j - 1) = ts.take (j - 1) :=
      List.take_append_of_le_length (by omega)
    refine ⟨j, hj1, by simp; omega, by rw [hfr]; exact hpaths, ?_, ?_, ?_, ?_, ?_, ?_⟩
    · rw [htk]
      exact hdone
    · rw [htk]
      exact hstored
    · rw [htk]
      exact hbuilds
    · rw [htk]
      exact hpj
    · rw [htk1]
      exact hlt
    · rw [htk1]
      exact hb0

lemma mom_all {s0 : ShootState} (hInv : ShootInv s0) (hns : s0.nshot = 0)
    (c : PCat) (hp0 : (getCat s0 c).paths = none) (ts : List Shot) : Mom s0 c ts := by
  have h : ∀ n, Mom s0 c (ts.take n) := by
    intro n
    induction n with
    | zero =>
      left
      simpa [foldShots] using hp0
    | succ n ih =>
      by_cases hlen : n < ts.length
      · have hsucc : ts.take (n + 1) = ts.take n ++ [ts[n]] := by
          rw [List.take_succ, List.getElem?_eq_getElem hlen]
          rfl
        rw [hsucc]
        exact mom_append hInv hns c (ts.take n) ts[n] ih
      · have h1 : ts.take (n + 1) = ts := List.take_of_length_le (by omega)
        have h2 : ts.take n = ts := List.take_of_length_le (by omega)
        rw [h1]
        rw [h2] at ih
        exact ih
  have := h ts.length
  rwa [List.take_length] at this

lemma allDone_getCat {s : ShootState} (h : allDone s = true) (c : PCat) :
    (getCat s c).done = true := by
  unfold allDone at h
  rw [Bool.and_eq_true, Bool.and_eq_true] at h
  cases c
  · exact h.1.1
  · exact h.1.2
  · exact h.2

lemma runShots_finished :
    ∀ (ts : List Shot) (s s' : ShootState), runShots s ts = .finished s' →
      ∃ n, n ≤ ts.length ∧ s' = foldShots s (ts.take n) ∧ allDone s' = true
  | [], s, s', h => by
    rw [runShots] at h
    by_cases hd : allDone s = true
    · rw [if_pos hd] at h
      injection h with heq
      subst heq
      exact ⟨0, by omega, rfl, hd⟩
    · rw [if_neg hd] at h
      exact (RunResult.noConfusion h)
  | es :: ts, s, s', h => by
    rw [runShots] at h
    by_cases hd : allDone s = true
    · rw [if_pos hd] at h
      injection h with heq
      subst heq
      exact ⟨0, by omega, rfl, hd⟩
    · rw [if_neg hd] at h
      by_cases hst : stallB { s with nshot := s.nshot + 1 } = true
      · rw [if_pos hst] at h
        exact (RunResult.noConfusion h)
      · rw [if_neg hst] at h
        obtain ⟨n, hn, hs', hall⟩ := runShots_finished ts (doShot s es) s' h
        refine ⟨n + 1, by simp only [List.length_cons]; omega, ?_, hall⟩
        rw [hs', List.take_succ_cons]
        rfl

lemma runShots_stalled :
    ∀ (ts : List Shot) (s : ShootState) (cc ci cv : ℕ) (s' : ShootState),
      ShootInv s → runShots s ts = .stalled cc ci cv s' →
      ShootInv s' ∧ cc = s'.caustic.stored ∧ ci = s'.indirect.stored ∧
      cv = s'.volume.stored ∧ stallB s' = true
  | [], s, cc, ci, cv, s', _, h => by
    rw [runShots] at h
    by_cases hd : allDone s = true
    · rw [if_pos hd] at h
      exact (RunResult.noConfusion h)
    · rw [if_neg hd] at h
      exact (RunResult.noConfusion h)
  | es :: ts, s, cc, ci, cv, s', hInv, h => by
    rw [runShots] at h
    by_cases hd : allDone s = true
    · rw [if_pos hd] at h
      exact (RunResult.noConfusion h)
    · rw [if_neg hd] at h
      by_cases hst : stallB { s with nshot := s.nshot + 1 } = true
      · rw [if_pos hst] at h
        injection h with h1 h2 h3 h4
        subst h1
        subst h2
        subst h3
        subst h4
        refine ⟨?_, rfl, rfl, rfl, hst⟩
        intro c
        rw [getCat_nshot]
        exact hInv c
      · rw [if_neg hst] at h
        exact runShots_stalled ts (doShot s es) cc ci cv s' (doShot_inv hInv es) h

/-- C1: for every photon category with a nonzero target, when the shooting
loop of `Surface_Preprocess` completes normally (every category done, no
stall abort), the category has stored exactly its target number of photons,
its `KdTree` map was constructed exactly once, namely during the very shot
in which the target count was reached (before that shot the count was below
target with no map), and the recorded `paths` normalization constant equals
the value of `nshot` at that moment. -/
theorem surfacePreprocess_category_targets (a b v : ℕ) (ts : List Shot)
    (s : ShootState)
    (hrun : runShots (initShootState a b v) ts = RunResult.finished s)
    (c : PCat) (hc : (getCat (initShootState a b v) c).target ≠ 0) :
    (getCat s c).stored = (getCat (initShootState a b v) c).target ∧
    (getCat s c).builds = 1 ∧
    ∃ j, (getCat s c).paths = some j ∧ 1 ≤ j ∧ j ≤ ts.length ∧
      (foldShots (initShootState a b v) (ts.take j)).nshot = j ∧
      (getCat (foldShots (initShootState a b v) (ts.take j)) c).stored =
        (getCat (initShootState a b v) c).target ∧
      (getCat (foldShots (initShootState a b v) (ts.take j)) c).builds = 1 ∧
      (getCat (foldShots (initShootState a b v) (ts.take (j - 1))) c).stored <
        (getCat (initShootState a b v) c).target ∧
      (getCat (foldShots (initShootState a b v) (ts.take (j - 1))) c).builds = 0 := by
  obtain ⟨n, hn, hs, hall⟩ := runShots_finished ts _ s hrun
  have hInv0 : ShootInv (initShootState a b v) := initShootState_inv a b v
  have hInvS : ShootInv s := by
    rw [hs]
    exact foldShots_inv _ _ hInv0
  have hcat := hInvS c
  have hdone := allDone_getCat hall c
  have htgt : (getCat s c).target = (getCat (initShootState a b v) c).target := by
    rw [hs]
    exact foldShots_target _ _ c
  have hstored : (getCat s c).stored = (getCat (initShootState a b v) c).target := by
    rw [← htgt]
    exact hcat.2.1.1 hdone
  have hbp := hcat.2.2.1 ⟨hdone, by rw [htgt]; exact hc⟩
  refine ⟨hstored, hbp.1, ?_⟩
  have hp0 : (getCat (initShootState a b v) c).paths = none := by
    cases c <;> rfl
  have hmom := mom_all hInv0 rfl c hp0 (ts.take n)
  rcases hmom with hnone | ⟨j, hj1, hjlen, hpaths, hdj, hsj, hbj, hpj, hlt1, hb01⟩
  · rw [← hs] at hnone
    exact absurd hnone hbp.2
  · have hulen : (ts.take n).length = n := by
      rw [List.length_take]
      omega
    have hjn : j ≤ n := by omega
    have htj : (ts.take n).take j = ts.take j := by
      rw [List.take_take]
      congr 1
      omega
    have htj1 : (ts.take n).take (j - 1) = ts.take (j - 1) := by
      rw [List.take_take]
      congr 1
      omega
    rw [htj] at hdj hsj hbj hpj
    rw [htj1] at hlt1 hb01
    refine ⟨j, by rw [hs]; exact hpaths, hj1, by omega, ?_, hsj, hbj, hlt1, hb01⟩
    rw [foldShots_nshot, List.length_take]
    show 0 + min j ts.length = j
    omega

/-- Witness for C1's theorem: targets 1/1/1, three shots depositing one
caustic, one indirect and one volume photon; the run finishes with each
category at its target, one map construction each, and paths constants
1, 2, 3. -/
theorem surfacePreprocess_category_targets_witness :
    (getCat (ShootState.mk 3 ⟨1, 1, true, some 1, 1⟩ ⟨1, 1, true, some 2, 1⟩
        ⟨1, 1, true, some 3, 1⟩) PCat.indirect).stored =
      (getCat (initShootState 1 1 1) PCat.indirect).target ∧
    (getCat (ShootState.mk 3 ⟨1, 1, true, some 1, 1⟩ ⟨1, 1, true, some 2, 1⟩
        ⟨1, 1, true, some 3, 1⟩) PCat.indirect).builds = 1 ∧
    ∃ j, (getCat (ShootState.mk 3 ⟨1, 1, true, some 1, 1⟩ ⟨1, 1, true, some 2, 1⟩
        ⟨1, 1, true, some 3, 1⟩) PCat.indirect).paths = some j ∧ 1 ≤ j ∧
      j ≤ [[PCat.caustic], [PCat.indirect], [PCat.volume]].length ∧
      (foldShots (initShootState 1 1 1)
        ([[PCat.caustic], [PCat.indirect], [PCat.volume]].take j)).nshot = j ∧
      (getCat (foldShots (initShootState 1 1 1)
        ([[PCat.caustic], [PCat.indirect], [PCat.volume]].take j)) PCat.indirect).stored =
        (getCat (initShootState 1 1 1) PCat.indirect).target ∧
      (getCat (foldShots (initShootState 1 1 1)
        ([[PCat.caustic], [PCat.indirect], [PCat.volume]].take j)) PCat.indirect).builds = 1 ∧
      (getCat (foldShots (initShootState 1 1 1)
        ([[PCat.caustic], [PCat.indirect], [PCat.volume]].take (j - 1))) PCat.indirect).stored <
        (getCat (initShootState 1 1 1) PCat.indirect).target ∧
      (getCat (foldShots (initShootState 1 1 1)
        ([[PCat.caustic], [PCat.indirect], [PCat.volume]].take (j - 1))) PCat.indirect).builds
        = 0 := by
  exact surfacePreprocess_category_targets 1 1 1
    [[PCat.caustic], [PCat.indirect], [PCat.volume]]
    (ShootState.mk 3 ⟨1, 1, true, some 1, 1⟩ ⟨1, 1, true, some 2, 1⟩ ⟨1, 1, true, some 3, 1⟩)
    (by decide) PCat.indirect (by decide)

lemma allDone_nshot (s : ShootState) (n : ℕ) :
    allDone { s with nshot := n } = allDone s := rfl

lemma run_empty :
    ∀ (n : ℕ) (s : ShootState) (ts' : List Shot), allDone s = false →
      s.nshot + n ≤ 500000 →
      runShots s (List.replicate n [] ++ ts') =
        runShots { s with nshot := s.nshot + n } ts'
  | 0, s, ts', _, _ => by
    have hse : { s with nshot := s.nshot + 0 } = s := by
      cases s
      simp
    rw [hse]
    rfl
  | n + 1, s, ts', hd, hle => by
    rw [List.replicate_succ, List.cons_append, runShots]
    rw [if_neg (by rw [hd]; exact Bool.false_ne_true)]
    have hstall : ¬ stallB { s with nshot := s.nshot + 1 } = true := by
      have h5 : ¬ (500000 < s.nshot + 1) := by omega
      simp [stallB, h5]
    rw [if_neg hstall]
    have hdo : doShot s [] = { s with nshot := s.nshot + 1 } := rfl
    rw [hdo]
    have hrec := run_empty n { s with nshot := s.nshot + 1 } ts'
      (by rw [allDone_nshot]; exact hd) (by simp only []; omega)
    rw [hrec]
    have : s.nshot + 1 + n = s.nshot + (n + 1) := by omega
    simp only [this]

/-- The concrete stall run used for C5: caustic target 1 (reached at shot
1, map built then), indirect target 1 never reached, volume target 0; after
500001 shots the stall test fires on the indirect category. -/
lemma stall_run_concrete :
    runShots (initShootState 1 1 0) ([[PCat.caustic]] ++ List.replicate 500000 []) =
      RunResult.stalled 1 0 0
        ⟨500001, ⟨1, 1, true, some 1, 1⟩, ⟨1, 0, false, none, 0⟩, ⟨0, 0, true, none, 0⟩⟩ := by
  rw [List.singleton_append, runShots]
  rw [if_neg (by decide)]
  rw [if_neg (by decide)]
  have hdo : doShot (initShootState 1 1 0) [PCat.caustic] =
      ⟨1, ⟨1, 1, true, some 1, 1⟩, ⟨1, 0, false, none, 0⟩, ⟨0, 0, true, none, 0⟩⟩ := by
    decide
  rw [hdo]
  have hsplit : List.replicate 500000 ([] : Shot) =
      List.replicate 499999 ([] : Shot) ++ [[]] := by
    rw [← List.replicate_succ']
  rw [hsplit]
  rw [run_empty 499999 _ [[]] (by decide) (by decide)]
  decide

/-- C5 (amended): whenever the shooting loop aborts through the stall test
(more than 500000 shots and some pending category stored no photons or
fewer than `nshot / 1024`, integer division), the reported error names
exactly the three per-category stored counts at that moment, and every
category that has not reached its target has no map built; however a
category that already reached its target keeps its already-built map, so
not every photon map is left unbuilt on this path. -/
theorem surfacePreprocess_stall_abort (a b v : ℕ) (ts : List Shot)
    (cc ci cv : ℕ) (s' : ShootState)
    (hrun : runShots (initShootState a b v) ts = RunResult.stalled cc ci cv s') :
    cc = s'.caustic.stored ∧ ci = s'.indirect.stored ∧ cv = s'.volume.stored ∧
    500000 < s'.nshot ∧
    (unsuccessful s'.caustic.target s'.caustic.stored s'.nshot ||
     unsuccessful s'.indirect.target s'.indirect.stored s'.nshot ||
     unsuccessful s'.volume.target s'.volume.stored s'.nshot) = true ∧
    (∀ c : PCat, (getCat s' c).done = false →
      (getCat s' c).paths = none ∧ (getCat s' c).builds = 0) := by
  obtain ⟨hInv, h1, h2, h3, hstall⟩ :=
    runShots_stalled ts _ cc ci cv s' (initShootState_inv a b v) hrun
  unfold stallB at hstall
  rw [Bool.and_eq_true] at hstall
  refine ⟨h1, h2, h3, of_decide_eq_true hstall.1, hstall.2, ?_⟩
  intro c hdf
  exact ((hInv c).2.2.2.1 hdf).symm

/-- Witness for C5's theorem at the concrete stall run of
`stall_run_concrete`. -/
theorem surfacePreprocess_stall_abort_witness :
    (1 : ℕ) = (ShootState.mk 500001 ⟨1, 1, true, some 1, 1⟩ ⟨1, 0, false, none, 0⟩
      ⟨0, 0, true, none, 0⟩).caustic.stored ∧
    (0 : ℕ) = (ShootState.mk 500001 ⟨1, 1, true, some 1, 1⟩ ⟨1, 0, false, none, 0⟩
      ⟨0, 0, true, none, 0⟩).indirect.stored ∧
    (0 : ℕ) = (ShootState.mk 500001 ⟨1, 1, true, some 1, 1⟩ ⟨1, 0, false, none, 0⟩
      ⟨0, 0, true, none, 0⟩).volume.stored ∧
    500000 < (ShootState.mk 500001 ⟨1, 1, true, some 1, 1⟩ ⟨1, 0, false, none, 0⟩
      ⟨0, 0, true, none, 0⟩).nshot ∧
    (unsuccessful 1 1 500001 || unsuccessful 1 0 500001 || unsuccessful 0 0 500001) = true ∧
    (∀ c : PCat, (getCat (ShootState.mk 500001 ⟨1, 1, true, some 1, 1⟩
        ⟨1, 0, false, none, 0⟩ ⟨0, 0, true, none, 0⟩) c).done = false →
      (getCat (ShootState.mk 500001 ⟨1, 1, true, some 1, 1⟩ ⟨1, 0, false, none, 0⟩
        ⟨0, 0, true, none, 0⟩) c).paths = none ∧
      (getCat (ShootState.mk 500001 ⟨1, 1, true, some 1, 1⟩ ⟨1, 0, false, none, 0⟩
        ⟨0, 0, true, none, 0⟩) c).builds = 0) := by
  exact surfacePreprocess_stall_abort 1 1 0 ([[PCat.caustic]] ++ List.replicate 500000 [])
    1 0 0 _ stall_run_concrete

/-- Counterexample for C5 as stated: in the concrete stall run the caustic
category had already reached its target at shot 1, so at the abort its map
exists (`builds = 1`, `paths = some 1`) - the claim's "every photon map left
unbuilt (no map exists when it returns on this path)" is false; only the
pending indirect category is mapless. -/
theorem stall_abort_keeps_completed_map :
    runShots (initShootState 1 1 0) ([[PCat.caustic]] ++ List.replicate 500000 []) =
      RunResult.stalled 1 0 0
        ⟨500001, ⟨1, 1, true, some 1, 1⟩, ⟨1, 0, false, none, 0⟩, ⟨0, 0, true, none, 0⟩⟩ ∧
    (ShootState.mk 500001 ⟨1, 1, true, some 1, 1⟩ ⟨1, 0, false, none, 0⟩
      ⟨0, 0, true, none, 0⟩).caustic.builds = 1 ∧
    (ShootState.mk 500001 ⟨1, 1, true, some 1, 1⟩ ⟨1, 0, false, none, 0⟩
      ⟨0, 0, true, none, 0⟩).caustic.paths = some 1 ∧
    (ShootState.mk 500001 ⟨1, 1, true, some 1, 1⟩ ⟨1, 0, false, none, 0⟩
      ⟨0, 0, true, none, 0⟩).indirect.done = false ∧
    (ShootState.mk 500001 ⟨1, 1, true, some 1, 1⟩ ⟨1, 0, false, none, 0⟩
      ⟨0, 0, true, none, 0⟩).indirect.paths = none := by
  exact ⟨stall_run_concrete, rfl, rfl, rfl, rfl⟩

/-!
### One photon path in `Surface_Preprocess` (claims C3, C4)

The body of `while (scene->Intersect(photonRay, &photonIsect))`:
`++nIntersections`; `TraceThrough` may absorb the path in the medium
(`break`); otherwise the surface code runs: when the BSDF has a
non-specular component a photon is deposited (direct set at the first
intersection, else caustic when `specularPath` is set, else indirect, the
latter two gated by their done flags) and possibly a radiance-photon
candidate is recorded; then a new direction is sampled
(`fr.Black() || pdf == 0` breaks), a Russian-roulette kill or more than 10
intersections breaks, and otherwise
`specularPath = (nIntersections == 1 || specularPath) && (flags & BSDF_SPECULAR)`.
The scene- and sampler-dependent data of each intersection is an oracle
record `BounceData`.
-/
structure BounceData where
  volumeContinue : Bool
  hasNonSpecular : Bool
  radCandidate : Bool
  sampleFail : Bool
  rrKill : Bool
  sampledSpecular : Bool
deriving DecidableEq

structure PathState where
  nInts : ℕ
  specularPath : Bool
  alive : Bool
  caustic : CatState
  indirect : CatState
  direct : ℕ
  radCount : ℕ
deriving DecidableEq

/-- The deposit block guarded by `hasNonSpecular` (run after
`++nIntersections`, so `st.nInts` is the current intersection index). -/
def surfaceDeposit (shot : ℕ) (st : PathState) (b : BounceData) : PathState :=
  if b.hasNonSpecular then
    if b.radCandidate then
      if st.nInts == 1 then
        { st with direct := st.direct + 1, radCount := st.radCount + 1 }
      else if st.specularPath then
        { st with caustic := catDeposit shot st.caustic, radCount := st.radCount + 1 }
      else
        { st with indirect := catDeposit shot st.indirect, radCount := st.radCount + 1 }
    else
      if st.nInts == 1 then { st with direct := st.direct + 1 }
      else if st.specularPath then { st with caustic := catDeposit shot st.caustic }
      else { st with indirect := catDeposit shot st.indirect }
  else st

/-- One iteration of the photon-path loop. -/
def bounceStep (shot : ℕ) (st : PathState) (b : BounceData) : PathState :=
  if st.alive = false then st
  else
    if b.volumeContinue = false then
      { st with nInts := st.nInts + 1, alive := false }
    else
      if b.sampleFail then
        { surfaceDeposit shot { st with nInts := st.nInts + 1 } b with alive := false }
      else if b.rrKill || decide (10 < st.nInts + 1) then
        { surfaceDeposit shot { st with nInts := st.nInts + 1 } b with alive := false }
      else
        { surfaceDeposit shot { st with nInts := st.nInts + 1 } b with
          specularPath := (st.nInts + 1 == 1 || st.specularPath) && b.sampledSpecular }

/-- A whole photon path: initial state before the first intersection
(`nIntersections = 0`, `specularPath = false`). -/
def pathWalkInit (caus ind : CatState) : PathState := ⟨0, false, true, caus, ind, 0, 0⟩

def pathWalk (shot : ℕ) (st : PathState) (bs : List BounceData) : PathState :=
  bs.foldl (bounceStep shot) st

lemma catDeposit_stored (shot : ℕ) (c : CatState) :
    (catDeposit shot c).stored = if c.done then c.stored else c.stored + 1 := by
  unfold catDeposit
  by_cases h : c.done
  · rw [if_pos h, if_pos h]
  · rw [if_neg h, if_neg h]
    by_cases hb : (c.stored + 1 == c.target) = true
    · rw [if_pos hb]
    · rw [if_neg hb]

lemma bounceStep_alive_ne_false {st : PathState} (halive : st.alive = true) :
    ¬ (st.alive = false) := by
  rw [halive]
  exact fun hcon => Bool.noConfusion hcon

lemma bounceStep_deposit_fields (shot : ℕ) (st : PathState) (b : BounceData)
    (halive : st.alive = true) (hvol : b.volumeContinue = true) :
    (bounceStep shot st b).direct =
      (surfaceDeposit shot { st with nInts := st.nInts + 1 } b).direct ∧
    (bounceStep shot st b).caustic =
      (surfaceDeposit shot { st with nInts := st.nInts + 1 } b).caustic ∧
    (bounceStep shot st b).indirect =
      (surfaceDeposit shot { st with nInts := st.nInts + 1 } b).indirect ∧
    (bounceStep shot st b).radCount =
      (surfaceDeposit shot { st with nInts := st.nInts + 1 } b).radCount := by
  unfold bounceStep
  rw [if_neg (bounceStep_alive_ne_false halive)]
  rw [if_neg (by rw [hvol]; exact fun hcon => Bool.noConfusion hcon)]
  by_cases hsf : b.sampleFail = true
  · rw [if_pos hsf]
    exact ⟨rfl, rfl, rfl, rfl⟩
  · rw [if_neg hsf]
    by_cases hrr : (b.rrKill || decide (10 < st.nInts + 1)) = true
    · rw [if_pos hrr]
      exact ⟨rfl, rfl, rfl, rfl⟩
    · rw [if_neg hrr]
      exact ⟨rfl, rfl, rfl, rfl⟩

lemma surfaceDeposit_keeps (shot : ℕ) (st : PathState) (b : BounceData) :
    (surfaceDeposit shot st b).alive = st.alive ∧
    (surfaceDeposit shot st b).nInts = st.nInts ∧
    (surfaceDeposit shot st b).specularPath = st.specularPath := by
  unfold surfaceDeposit
  split_ifs <;> exact ⟨rfl, rfl, rfl⟩

lemma bool_tf {b : Bool} (h : ¬ b = false) : b = true := by
  cases b
  · exact absurd rfl h
  · rfl

lemma bool_ft {b : Bool} (h : ¬ b = true) : b = false := by
  cases b
  · rfl
  · exact absurd rfl h

lemma bounceStep_dead (shot : ℕ) (st : PathState) (b : BounceData)
    (h : st.alive = false) : bounceStep shot st b = st := by
  unfold bounceStep
  rw [if_pos h]

lemma pathWalk_dead (shot : ℕ) :
    ∀ (bs : List BounceData) (st : PathState), st.alive = false →
      pathWalk shot st bs = st
  | [], _, _ => rfl
  | b :: bs, st, h => by
    show pathWalk shot (bounceStep shot st b) bs = st
    rw [bounceStep_dead shot st b h]
    exact pathWalk_dead shot bs st h

lemma alive_of_walk (shot : ℕ) (bs : List BounceData) (st : PathState)
    (h : (pathWalk shot st bs).alive = true) : st.alive = true := by
  by_cases ha : st.alive = false
  · rw [pathWalk_dead shot bs st ha, ha] at h
    exact Bool.noConfusion h
  · exact bool_tf ha

lemma bounceStep_alive_inv (shot : ℕ) (st : PathState) (b : BounceData)
    (h : (bounceStep shot st b).alive = true) :
    st.alive = true ∧ b.volumeContinue = true ∧ b.sampleFail = false ∧
    (b.rrKill || decide (10 < st.nInts + 1)) = false := by
  by_cases ha : st.alive = false
  · rw [bounceStep_dead shot st b ha, ha] at h
    exact Bool.noConfusion h
  · have halive := bool_tf ha
    unfold bounceStep at h
    rw [if_neg ha] at h
    by_cases hv : b.volumeContinue = false
    · rw [if_pos hv] at h
      exact Bool.noConfusion h
    · rw [if_neg hv] at h
      by_cases hsf : b.sampleFail = true
      · rw [if_pos hsf] at h
        exact Bool.noConfusion h
      · rw [if_neg hsf] at h
        by_cases hrr : (b.rrKill || decide (10 < st.nInts + 1)) = true
        · rw [if_pos hrr] at h
          exact Bool.noConfusion h
        · exact ⟨halive, bool_tf hv, bool_ft hsf, bool_ft hrr⟩

lemma bounceStep_continue (shot : ℕ) (st : PathState) (b : BounceData)
    (halive : st.alive = true) (hvol : b.volumeContinue = true)
    (hsf : b.sampleFail = false)
    (hrr : (b.rrKill || decide (10 < st.nInts + 1)) = false) :
    (bounceStep shot st b).specularPath =
      ((st.nInts + 1 == 1 || st.specularPath) && b.sampledSpecular) ∧
    (bounceStep shot st b).alive = true ∧
    (bounceStep shot st b).nInts = st.nInts + 1 := by
  unfold bounceStep
  rw [if_neg (bounceStep_alive_ne_false halive)]
  rw [if_neg (by rw [hvol]; exact fun hcon => Bool.noConfusion hcon)]
  rw [if_neg (by rw [hsf]; exact fun hcon => Bool.noConfusion hcon)]
  rw [if_neg (by rw [hrr]; exact fun hcon => Bool.noConfusion hcon)]
  refine ⟨rfl, ?_, ?_⟩
  · show (surfaceDeposit shot { st with nInts := st.nInts + 1 } b).alive = true
    rw [(surfaceDeposit_keeps shot _ b).1]
    exact halive
  · show (surfaceDeposit shot { st with nInts := st.nInts + 1 } b).nInts = st.nInts + 1
    rw [(surfaceDeposit_keeps shot _ b).2.1]

lemma pathWalk_spec_gen (shot : ℕ) :
    ∀ (bs : List BounceData) (st : PathState), 1 ≤ st.nInts →
      (pathWalk shot st bs).alive = true →
      (pathWalk shot st bs).specularPath =
        (st.specularPath && bs.all (fun x => x.sampledSpecular))
  | [], st, _, _ => by simp [pathWalk]
  | b :: bs, st, hn, hfin => by
    have hfin' : (pathWalk shot (bounceStep shot st b) bs).alive = true := hfin
    obtain ⟨halive, hv, hsf, hrr⟩ :=
      bounceStep_alive_inv shot st b (alive_of_walk shot bs _ hfin')
    obtain ⟨hspec, -, hni⟩ := bounceStep_continue shot st b halive hv hsf hrr
    have hbeq1 : (st.nInts + 1 == 1) = false := by
      rw [beq_eq_false_iff_ne]
      omega
    have hih := pathWalk_spec_gen shot bs (bounceStep shot st b)
      (by rw [hni]; omega) hfin'
    show (pathWalk shot (bounceStep shot st b) bs).specularPath = _
    rw [hih, hspec, hbeq1]
    simp [Bool.and_assoc]

/-- C3: at every surface intersection of a photon path, a photon is
deposited only when the BSDF has a non-specular component (a medium
absorption or a purely specular surface deposits nothing); a deposit at the
first intersection goes to the direct set, a deposit at a later
intersection goes to the caustic set when `specularPath` is set and to the
indirect set otherwise, and the caustic/indirect deposit actually stores a
photon only while that category is not yet complete. -/
theorem photon_deposit_classification (shot : ℕ) (st : PathState) (b : BounceData)
    (halive : st.alive = true) :
    (b.volumeContinue = false →
      (bounceStep shot st b).direct = st.direct ∧
      (bounceStep shot st b).caustic = st.caustic ∧
      (bounceStep shot st b).indirect = st.indirect) ∧
    (b.volumeContinue = true → b.hasNonSpecular = false →
      (bounceStep shot st b).direct = st.direct ∧
      (bounceStep shot st b).caustic = st.caustic ∧
      (bounceStep shot st b).indirect = st.indirect ∧
      (bounceStep shot st b).radCount = st.radCount) ∧
    (b.volumeContinue = true → b.hasNonSpecular = true → st.nInts = 0 →
      (bounceStep shot st b).direct = st.direct + 1 ∧
      (bounceStep shot st b).caustic = st.caustic ∧
      (bounceStep shot st b).indirect = st.indirect) ∧
    (b.volumeContinue = true → b.hasNonSpecular = true → st.nInts ≠ 0 →
      st.specularPath = true →
      (bounceStep shot st b).caustic.stored =
        (if st.caustic.done then st.caustic.stored else st.caustic.stored + 1) ∧
      (bounceStep shot st b).direct = st.direct ∧
      (bounceStep shot st b).indirect = st.indirect) ∧
    (b.volumeContinue = true → b.hasNonSpecular = true → st.nInts ≠ 0 →
      st.specularPath = false →
      (bounceStep shot st b).indirect.stored =
        (if st.indirect.done then st.indirect.stored else st.indirect.stored + 1) ∧
      (bounceStep shot st b).direct = st.direct ∧
      (bounceStep shot st b).caustic = st.caustic) := by
  refine ⟨?_, ?_, ?_, ?_, ?_⟩
  · intro hv
    unfold bounceStep
    rw [if_neg (bounceStep_alive_ne_false halive), if_pos hv]
    exact ⟨rfl, rfl, rfl⟩
  · intro hv hns
    obtain ⟨hd, hc, hi, hr⟩ := bounceStep_deposit_fields shot st b halive hv
    rw [hd, hc, hi, hr]
    unfold surfaceDeposit
    rw [if_neg (by rw [hns]; exact fun hcon => Bool.noConfusion hcon)]
    exact ⟨rfl, rfl, rfl, rfl⟩
  · intro hv hns hn0
    obtain ⟨hd, hc, hi, -⟩ := bounceStep_deposit_fields shot st b halive hv
    rw [hd, hc, hi]
    unfold surfaceDeposit
    rw [if_pos hns]
    have h1 : (({ st with nInts := st.nInts + 1 } : PathState).nInts == 1) = true := by
      show (st.nInts + 1 == 1) = true
      rw [hn0]
      rfl
    by_cases hrad : b.radCandidate = true
    · rw [if_pos hrad, if_pos h1]
      exact ⟨rfl, rfl, rfl⟩
    · rw [if_neg hrad, if_pos h1]
      exact ⟨rfl, rfl, rfl⟩
  · intro hv hns hn0 hsp
    obtain ⟨hd, hc, hi, -⟩ := bounceStep_deposit_fields shot st b halive hv
    rw [hd, hc, hi]
    unfold surfaceDeposit
    rw [if_pos hns]
    have h1 : (({ st with nInts := st.nInts + 1 } : PathState).nInts == 1) = false := by
      show (st.nInts + 1 == 1) = false
      rw [beq_eq_false_iff_ne]
      omega
    by_cases hrad : b.radCandidate = true
    · rw [if_pos hrad, if_neg (by rw [h1]; exact fun hcon => Bool.noConfusion hcon),
        if_pos hsp]
      exact ⟨catDeposit_stored shot st.caustic, rfl, rfl⟩
    · rw [if_neg hrad, if_neg (by rw [h1]; exact fun hcon => Bool.noConfusion hcon),
        if_pos hsp]
      exact ⟨catDeposit_stored shot st.caustic, rfl, rfl⟩
  · intro hv hns hn0 hsp
    obtain ⟨hd, hc, hi, -⟩ := bounceStep_deposit_fields shot st b halive hv
    rw [hd, hc, hi]
    unfold surfaceDeposit
    rw [if_pos hns]
    have h1 : (({ st with nInts := st.nInts + 1 } : PathState).nInts == 1) = false := by
      show (st.nInts + 1 == 1) = false
      rw [beq_eq_false_iff_ne]
      omega
    by_cases hrad : b.radCandidate = true
    · rw [if_pos hrad, if_neg (by rw [h1]; exact fun hcon => Bool.noConfusion hcon),
        if_neg (by rw [hsp]; exact fun hcon => Bool.noConfusion hcon)]
      exact ⟨catDeposit_stored shot st.indirect, rfl, rfl⟩
    · rw [if_neg hrad, if_neg (by rw [h1]; exact fun hcon => Bool.noConfusion hcon),
        if_neg (by rw [hsp]; exact fun hcon => Bool.noConfusion hcon)]
      exact ⟨catDeposit_stored shot st.indirect, rfl, rfl⟩

/-- Witness for C3's theorem: a second intersection on a purely specular
path with a diffuse surface and an incomplete caustic category stores one
caustic photon and leaves the other sets untouched. -/
theorem photon_deposit_classification_witness :
    (bounceStep 7 ⟨1, true, true, catInit 5, catInit 5, 1, 0⟩
        ⟨true, true, false, false, false, false⟩).caustic.stored =
      (if (catInit 5).done then (catInit 5).stored else (catInit 5).stored + 1) ∧
    (bounceStep 7 ⟨1, true, true, catInit 5, catInit 5, 1, 0⟩
        ⟨true, true, false, false, false, false⟩).direct = 1 ∧
    (bounceStep 7 ⟨1, true, true, catInit 5, catInit 5, 1, 0⟩
        ⟨true, true, false, false, false, false⟩).indirect = catInit 5 := by
  exact (photon_deposit_classification 7 ⟨1, true, true, catInit 5, catInit 5, 1, 0⟩
    ⟨true, true, false, false, false, false⟩ rfl).2.2.2.1 rfl rfl (by decide) rfl

/-- A definition following the claim's words for C4, for comparison: update
the flag as (previous flag AND first-bounce) AND (sampled direction was
specular). -/
def specUpdateClaimed (prev firstBounce spec : Bool) : Bool :=
  (prev && firstBounce) && spec

/-- C4 (amended): along a photon path the specular-only flag is updated
after each continuing bounce as (first-bounce OR previous flag) AND
(sampled direction was specular); consequently along every surviving path
with at least one bounce the flag equals the conjunction of the sampled
bounces' specular flags, i.e. it stays true exactly until the first
non-specular bounce. -/
theorem specular_flag_evolution (shot : ℕ) (st : PathState) (b : BounceData)
    (caus ind : CatState) (bs : List BounceData) :
    (st.alive = true → b.volumeContinue = true → b.sampleFail = false →
      (b.rrKill || decide (10 < st.nInts + 1)) = false →
      (bounceStep shot st b).specularPath =
        ((st.nInts + 1 == 1 || st.specularPath) && b.sampledSpecular)) ∧
    ((pathWalk shot (pathWalkInit caus ind) bs).alive = true → bs ≠ [] →
      (pathWalk shot (pathWalkInit caus ind) bs).specularPath =
        bs.all (fun x => x.sampledSpecular)) := by
  constructor
  · intro h1 h2 h3 h4
    exact (bounceStep_continue shot st b h1 h2 h3 h4).1
  · intro hfin hne
    obtain ⟨b1, bs', rfl⟩ := List.exists_cons_of_ne_nil hne
    have hfin' : (pathWalk shot (bounceStep shot (pathWalkInit caus ind) b1) bs').alive =
        true := hfin
    obtain ⟨halive, hv, hsf, hrr⟩ :=
      bounceStep_alive_inv shot _ b1 (alive_of_walk shot bs' _ hfin')
    obtain ⟨hspec, -, hni⟩ := bounceStep_continue shot _ b1 halive hv hsf hrr
    have hih := pathWalk_spec_gen shot bs' (bounceStep shot (pathWalkInit caus ind) b1)
      (by rw [hni]; omega) hfin'
    show (pathWalk shot (bounceStep shot (pathWalkInit caus ind) b1) bs').specularPath = _
    rw [hih, hspec]
    simp [pathWalkInit]

/-- Witness for C4's theorem: a specular first bounce followed by a
non-specular second bounce on a surviving path; the flag after the first
bounce is the sampled flag and the final flag is the conjunction. -/
theorem specular_flag_evolution_witness :
    (bounceStep 1 (pathWalkInit (catInit 5) (catInit 5))
        ⟨true, false, false, false, false, true⟩).specularPath =
      ((0 + 1 == 1 || false) && true) ∧
    (pathWalk 1 (pathWalkInit (catInit 5) (catInit 5))
        [⟨true, false, false, false, false, true⟩,
         ⟨true, false, false, false, false, false⟩]).specularPath =
      [(⟨true, false, false, false, false, true⟩ : BounceData),
       ⟨true, false, false, false, false, false⟩].all (fun x => x.sampledSpecular) := by
  have h := specular_flag_evolution 1 (pathWalkInit (catInit 5) (catInit 5))
    ⟨true, false, false, false, false, true⟩ (catInit 5) (catInit 5)
    [⟨true, false, false, false, false, true⟩, ⟨true, false, false, false, false, false⟩]
  exact ⟨h.1 rfl rfl rfl (by decide), h.2 (by decide) (by decide)⟩

/-- Counterexample for C4 as stated: at a specular first bounce the code
sets the flag to true (`(nIntersections == 1 || specularPath) && specular`
with `specularPath` initialized to false), while the claimed update
"(previous flag AND first-bounce) AND specular" would give false - the
claimed AND should be an OR. -/
theorem specular_flag_formula_mismatch :
    (bounceStep 1 (pathWalkInit (catInit 5) (catInit 5))
        ⟨true, false, false, false, false, true⟩).specularPath = true ∧
    specUpdateClaimed false true true = false := by
  exact ⟨by decide, rfl⟩

/-! ### Cached radiance of radiance photons (`Surface_estimateE` and the
radiance precompute pass of `Surface_Preprocess`) -/

/-- A photon retained by the bounded lookup inside `Surface_estimateE`:
incident direction, power, and squared distance to the query point. -/
structure FoundPhoton where
  wi : Vec3
  alpha : Spectrum
  d2 : ℚ
deriving DecidableEq

/-- What `Surface_estimateE` reads from one photon map: the photons retained
by `map->Lookup`, the map's paths count (`count`), and the achieved squared
search radius `md2`. A `none` map is pbrt's null `KdTree` pointer. -/
structure MapData where
  found : List FoundPhoton
  count : ℚ
  md2 : ℚ
deriving DecidableEq

/-- `VolumePhotonMap::Surface_estimateE`: a null map yields black; otherwise
the raw powers of the retained photons on the query hemisphere
(`Dot(n, wi) > 0`) are summed and the sum is divided by
`count * md2 * pi` - no per-photon weighting is applied. -/
def Surface_estimateE (pi : ℚ) (map : Option MapData) (n : Vec3) : Spectrum :=
  match map with
  | none => 0
  | some m =>
      (m.found.foldl
        (fun (E : Spectrum) (ph : FoundPhoton) =>
          if 0 < n.dot ph.wi then E + ph.alpha else E) 0).divQ
        (m.count * m.md2 * pi)

/-- The falloff kernel (`kernel`, volumephotonmap.cpp):
`3/(md2*pi) * (1 - d2/md2)^2`. It is used by `Surface_LPhoton`, not by
`Surface_estimateE`. -/
def kernel (pi d2 md2 : ℚ) : ℚ :=
  3 / (md2 * pi) * ((1 - d2 / md2) * (1 - d2 / md2))

/-- A definition following the claim's words, for comparison: the irradiance
estimate with each neighbor photon weighted by the falloff kernel before the
final division. -/
def estimateE_claimed (pi : ℚ) (map : Option MapData) (n : Vec3) : Spectrum :=
  match map with
  | none => 0
  | some m =>
      (m.found.foldl
        (fun (E : Spectrum) (ph : FoundPhoton) =>
          if 0 < n.dot ph.wi then E + Spectrum.scale (kernel pi ph.d2 m.md2) ph.alpha
          else E) 0).divQ (m.count * m.md2 * pi)

/-- The three-map irradiance sum of the radiance precompute: direct,
indirect, and caustic estimates, each normalized by its own map's paths
count carried in its `MapData`. -/
def hemiE (pi : ℚ) (direct indirect caustic : Option MapData) (n : Vec3) : Spectrum :=
  Surface_estimateE pi direct n + Surface_estimateE pi indirect n +
    Surface_estimateE pi caustic n

/-- `rp.Lo` after the reflectance branch: starting from black, add
`E * INV_PI * rho_r` when the reflectance is not black. -/
def loAfterR (pi : ℚ) (direct indirect caustic : Option MapData)
    (rho_r : Spectrum) (n : Vec3) : Spectrum :=
  if rho_r.isBlack then 0
  else 0 + Spectrum.scale (1 / pi) (hemiE pi direct indirect caustic n) * rho_r

/-- `rp.Lo` after both branches: the transmittance branch adds
`E * INV_PI * rho_t` with the flipped normal when `rho_t` is not black. One
such value is computed for each radiance photon in the single pass that runs
after the shooting loop finishes. -/
def precomputeLo (pi : ℚ) (direct indirect caustic : Option MapData)
    (rho_r rho_t : Spectrum) (n : Vec3) : Spectrum :=
  if rho_t.isBlack then loAfterR pi direct indirect caustic rho_r n
  else loAfterR pi direct indirect caustic rho_r n +
    Spectrum.scale (1 / pi) (hemiE pi direct indirect caustic (-n)) * rho_t

lemma Spectrum.zero_r : (0 : Spectrum).r = 0 := rfl

lemma Spectrum.zero_g : (0 : Spectrum).g = 0 := rfl

lemma Spectrum.zero_b : (0 : Spectrum).b = 0 := rfl

lemma Spectrum.add_r (s t : Spectrum) : (s + t).r = s.r + t.r := rfl

lemma Spectrum.add_g (s t : Spectrum) : (s + t).g = s.g + t.g := rfl

lemma Spectrum.add_b (s t : Spectrum) : (s + t).b = s.b + t.b := rfl

lemma Spectrum.mul_r (s t : Spectrum) : (s * t).r = s.r * t.r := rfl

lemma Spectrum.mul_g (s t : Spectrum) : (s * t).g = s.g * t.g := rfl

lemma Spectrum.mul_b (s t : Spectrum) : (s * t).b = s.b * t.b := rfl

lemma Spectrum.scale_r (q : ℚ) (s : Spectrum) : (Spectrum.scale q s).r = q * s.r := rfl

lemma Spectrum.scale_g (q : ℚ) (s : Spectrum) : (Spectrum.scale q s).g = q * s.g := rfl

lemma Spectrum.scale_b (q : ℚ) (s : Spectrum) : (Spectrum.scale q s).b = q * s.b := rfl

lemma sEq {a b : Spectrum} (h1 : a.r = b.r) (h2 : a.g = b.g) (h3 : a.b = b.b) :
    a = b := by
  cases a
  cases b
  rw [Spectrum.mk.injEq]
  exact ⟨h1, h2, h3⟩

/-- C7 (amended): a null map contributes black, and the cached outgoing
radiance of a radiance photon is exactly
`(1/pi) * (rho_r * E(n) + rho_t * E(-n))`, where each hemisphere's
irradiance `E` is the sum of the direct, indirect, and caustic estimates
each normalized by its own map's paths count; the per-map estimate sums the
raw powers of the hemisphere-facing neighbor photons and divides by
`(count * md2 * pi)` - the falloff kernel is NOT applied in
`Surface_estimateE` (the black-reflectance guards only skip work and do not
change the value). -/
theorem radiance_photon_cache (pi : ℚ) (d i c : Option MapData)
    (rho_r rho_t : Spectrum) (n : Vec3) :
    Surface_estimateE pi none n = 0 ∧
    hemiE pi d i c n =
      Surface_estimateE pi d n + Surface_estimateE pi i n +
        Surface_estimateE pi c n ∧
    precomputeLo pi d i c rho_r rho_t n =
      Spectrum.scale (1 / pi)
        (hemiE pi d i c n * rho_r + hemiE pi d i c (-n) * rho_t) := by
  refine ⟨rfl, rfl, ?_⟩
  unfold precomputeLo loAfterR
  obtain ⟨rr, rg, rb⟩ := rho_r
  obtain ⟨tr, tg, tb⟩ := rho_t
  by_cases ht : Spectrum.isBlack ⟨tr, tg, tb⟩ = true
  · have htc : (tr = 0 ∧ tg = 0) ∧ tb = 0 := by
      simpa [Spectrum.isBlack] using ht
    obtain ⟨⟨ht1, ht2⟩, ht3⟩ := htc
    subst ht1 ht2 ht3
    rw [if_pos ht]
    by_cases hr : Spectrum.isBlack ⟨rr, rg, rb⟩ = true
    · have hrc : (rr = 0 ∧ rg = 0) ∧ rb = 0 := by
        simpa [Spectrum.isBlack] using hr
      obtain ⟨⟨hr1, hr2⟩, hr3⟩ := hrc
      subst hr1 hr2 hr3
      rw [if_pos hr]
      refine sEq ?_ ?_ ?_ <;>
        simp only [Spectrum.add_r, Spectrum.add_g, Spectrum.add_b, Spectrum.mul_r,
          Spectrum.mul_g, Spectrum.mul_b, Spectrum.scale_r, Spectrum.scale_g,
          Spectrum.scale_b, Spectrum.zero_r, Spectrum.zero_g, Spectrum.zero_b] <;>
        ring
    · rw [if_neg hr]
      refine sEq ?_ ?_ ?_ <;>
        simp only [Spectrum.add_r, Spectrum.add_g, Spectrum.add_b, Spectrum.mul_r,
          Spectrum.mul_g, Spectrum.mul_b, Spectrum.scale_r, Spectrum.scale_g,
          Spectrum.scale_b, Spectrum.zero_r, Spectrum.zero_g, Spectrum.zero_b] <;>
        ring
  · rw [if_neg ht]
    by_cases hr : Spectrum.isBlack ⟨rr, rg, rb⟩ = true
    · have hrc : (rr = 0 ∧ rg = 0) ∧ rb = 0 := by
        simpa [Spectrum.isBlack] using hr
      obtain ⟨⟨hr1, hr2⟩, hr3⟩ := hrc
      subst hr1 hr2 hr3
      rw [if_pos hr]
      refine sEq ?_ ?_ ?_ <;>
        simp only [Spectrum.add_r, Spectrum.add_g, Spectrum.add_b, Spectrum.mul_r,
          Spectrum.mul_g, Spectrum.mul_b, Spectrum.scale_r, Spectrum.scale_g,
          Spectrum.scale_b, Spectrum.zero_r, Spectrum.zero_g, Spectrum.zero_b] <;>
        ring
    · rw [if_neg hr]
      refine sEq ?_ ?_ ?_ <;>
        simp only [Spectrum.add_r, Spectrum.add_g, Spectrum.add_b, Spectrum.mul_r,
          Spectrum.mul_g, Spectrum.mul_b, Spectrum.scale_r, Spectrum.scale_g,
          Spectrum.scale_b, Spectrum.zero_r, Spectrum.zero_g, Spectrum.zero_b] <;>
        ring

/-- Counterexample for C7 as stated: on a concrete one-photon map
(power (1,1,1), squared distance 1/4, achieved radius 1, one path, pi = 3),
the code's `Surface_estimateE` returns the raw power divided by
`count*md2*pi`, i.e. 1/3 per channel, while the claimed kernel-weighted
estimate would return `kernel * power / (count*md2*pi)` = 3/16 per channel:
the falloff kernel is not applied in the irradiance estimate. -/
theorem estimateE_kernel_mismatch :
    Surface_estimateE 3 (some ⟨[⟨⟨0, 0, 1⟩, ⟨1, 1, 1⟩, 1 / 4⟩], 1, 1⟩) ⟨0, 0, 1⟩ =
      ⟨1 / 3, 1 / 3, 1 / 3⟩ ∧
    estimateE_claimed 3 (some ⟨[⟨⟨0, 0, 1⟩, ⟨1, 1, 1⟩, 1 / 4⟩], 1, 1⟩) ⟨0, 0, 1⟩ =
      ⟨3 / 16, 3 / 16, 3 / 16⟩ := by
  refine ⟨sEq ?_ ?_ ?_, sEq ?_ ?_ ?_⟩ <;>
    norm_num [Surface_estimateE, estimateE_claimed, kernel, Vec3.dot, Spectrum.divQ,
      Spectrum.scale, Spectrum.add_r, Spectrum.add_g, Spectrum.add_b, Spectrum.zero_r,
      Spectrum.zero_g, Spectrum.zero_b]
